import Mathlib

/-- Lookup in an association list: first entry with the given key wins. -/
def alookup {α β : Type} [DecidableEq α] : List (α × β) → α → Option β
  | [], _ => none
  | (k, v) :: rest, k0 => if k = k0 then some v else alookup rest k0

/-- Deletion of a key from an association list (Go delete). -/
def aerase {α β : Type} [DecidableEq α] (l : List (α × β)) (k : α) : List (α × β) :=
  l.filter (fun e => e.1 ≠ k)

/-- Insertion or replacement of a key in an association list (Go map assignment). -/
def ainsert {α β : Type} [DecidableEq α] : List (α × β) → α → β → List (α × β)
  | [], k, v => [(k, v)]
  | (k1, v1) :: rest, k, v => if k1 = k then (k, v) :: rest else (k1, v1) :: ainsert rest k v

/-- In-place modification of the value stored at a key; identity when the key is absent. -/
def aupdate {α β : Type} [DecidableEq α] (l : List (α × β)) (k : α) (f : β → β) :
    List (α × β) :=
  l.map (fun e => if e.1 = k then (e.1, f e.2) else e)

/-- Set insertion on a list (Go map-as-set assignment): no duplicate added. -/
def sinsert {α : Type} [DecidableEq α] (l : List α) (x : α) : List α :=
  if x ∈ l then l else l ++ [x]

/-- Set deletion on a list (Go delete on a map-as-set). -/
def serase {α : Type} [DecidableEq α] (l : List α) (x : α) : List α :=
  l.filter (fun y => y ≠ x)

/-- Minimal embedding of types.Block: only the height is observed by the
components under verification. -/
structure Block where
  height : Int
deriving DecidableEq, Repr

/-- In-memory blockchain reactor messages (the closed variant set). -/
inductive Message : Type
  | blockRequest (height : Int)
  | blockResponse (block : Block)
  | noBlockResponse (height : Int)
  | statusRequest (height : Int)
  | statusResponse (height : Int)
deriving DecidableEq, Repr

/-- Wire form of a blockchain message (embedding of bcproto.Message and
its Sum variants). -/
inductive ProtoMessage : Type
  | blockRequest (height : Int)
  | blockResponse (block : Block)
  | noBlockResponse (height : Int)
  | statusRequest (height : Int)
  | statusResponse (height : Int)
deriving DecidableEq, Repr

/-- Modelled from the spec: Block.ToProto.  Block serialization is outside
the repository snapshot and outside the scope of the spec; the block
payload round-trips unchanged. -/
def blockToProto (b : Block) : Except String Block := Except.ok b

/-- Modelled from the spec: Block.FromProto, inverse of blockToProto. -/
def blockFromProto (b : Block) : Except String Block := Except.ok b

/-- Modelled from the spec: the structural validator of a message carrying
a height.  The spec demands strictly positive heights. -/
def heightValid (h : Int) : Bool := 1 ≤ h

/-- Modelled from the spec: ValidateBasic for each message variant —
positive heights; a block response must carry a (non-null) block, which
the embedding guarantees by construction. -/
def Message.validateBasic : Message → Bool
  | .blockRequest h => heightValid h
  | .blockResponse _ => true
  | .noBlockResponse h => heightValid h
  | .statusRequest h => heightValid h
  | .statusResponse h => heightValid h

/-- Embedding of MsgToProto.  Faithful to the source: the StatusResponse
message is encoded as the wire StatusRequest variant and the
StatusRequest message as the wire StatusResponse variant. -/
def MsgToProto : Message → Except String ProtoMessage
  | .blockRequest h => Except.ok (ProtoMessage.blockRequest h)
  | .blockResponse b =>
    match blockToProto b with
    | .error e => .error e
    | .ok pb => .ok (ProtoMessage.blockResponse pb)
  | .noBlockResponse h => Except.ok (ProtoMessage.noBlockResponse h)
  | .statusResponse h => Except.ok (ProtoMessage.statusRequest h)
  | .statusRequest h => Except.ok (ProtoMessage.statusResponse h)

/-- Embedding of MsgFromProto.  Faithful to the source: the wire
StatusResponse variant is decoded to a StatusRequest message. -/
def MsgFromProto : ProtoMessage → Except String Message
  | .blockRequest h =>
    let bm := Message.blockRequest h
    if bm.validateBasic then .ok bm else .error "invalid height"
  | .noBlockResponse h =>
    let bm := Message.noBlockResponse h
    if bm.validateBasic then .ok bm else .error "invalid height"
  | .blockResponse pb =>
    match blockFromProto pb with
    | .error e => .error e
    | .ok b =>
      let bm := Message.blockResponse b
      if bm.validateBasic then .ok bm else .error "invalid block"
  | .statusRequest h =>
    let bm := Message.statusRequest h
    if bm.validateBasic then .ok bm else .error "invalid height"
  | .statusResponse h =>
    let bm := Message.statusRequest h
    if bm.validateBasic then .ok bm else .error "invalid height"

/-- Round trip of the codec on one message. -/
def codecRoundTrip (m : Message) : Except String Message :=
  (MsgToProto m).bind MsgFromProto

/-- Error values of the blockchainexp package that the pool observes or
returns (errors.go of the package is summarized by the spec error
taxonomy). -/
inductive BCError : Type
  | peerTooShort
  | peerLowersItsHeight
  | badDataFromPeer
  | missingBlock
  | slowPeer
  | nilPeerForBlockRequest
  | sendQueueFull
  | noBlockResponse
deriving DecidableEq, Repr

/-- Modelled from the spec: the tunable per-peer cap on in-flight
requests (maxRequestsPerPeer); the constant is declared outside the
repository snapshot. -/
def maxRequestsPerPeer : Nat := 20

/-- Modelled from the spec: the per-peer record (bpPeer). -/
structure BPPeer where
  id : Nat
  height : Int
  pending : List Int
  delivered : List (Int × Block)
  slow : Bool
deriving DecidableEq, Repr

/-- Heights known to a peer: pending requests plus delivered blocks.
This is the key set of the blocks map of the bpPeer source. -/
def keysOf (r : BPPeer) : List Int :=
  r.pending ++ r.delivered.map Prod.fst

/-- Modelled from the spec: NewBPPeer creates a fresh record with no
pending or delivered heights (error callback and params are external). -/
def NewBPPeer (id : Nat) (height : Int) : BPPeer :=
  { id := id, height := height, pending := [], delivered := [], slow := false }

/-- Modelled from the spec: RemoveBlock erases a height from both the
pending set and the delivered map. -/
def BPPeer.RemoveBlock (r : BPPeer) (height : Int) : BPPeer :=
  { r with pending := serase r.pending height, delivered := aerase r.delivered height }

/-- Modelled from the spec: RequestSent records a height as pending. -/
def BPPeer.RequestSent (r : BPPeer) (height : Int) : BPPeer :=
  { r with pending := sinsert r.pending height, delivered := aerase r.delivered height }

/-- Modelled from the spec: AddBlock moves a height from pending to
delivered and fails with BadData when the height was not pending.  The
block size only feeds the rate estimate, which is external here. -/
def BPPeer.AddBlock (r : BPPeer) (block : Block) (blockSize : Int) :
    BPPeer × Option BCError :=
  if block.height ∈ r.pending then
    ({ r with pending := serase r.pending block.height,
              delivered := ainsert r.delivered block.height block }, none)
  else (r, some BCError.badDataFromPeer)

/-- Modelled from the spec: BlockAtHeight returns the delivered block or
a missing-block error. -/
def BPPeer.BlockAtHeight (r : BPPeer) (height : Int) : Except BCError Block :=
  match alookup r.delivered height with
  | some b => Except.ok b
  | none => Except.error BCError.missingBlock

/-- Modelled from the spec: CheckRate reports the slow-peer error when
the throughput oracle says the peer fell below the floor. -/
def BPPeer.CheckRate (r : BPPeer) : Option BCError :=
  if r.slow then some BCError.slowPeer else none

/-- Embedding of the blockPool structure (pool.go).  The logger and the
reactor handle are external; the reactor send callback is passed to the
operations that need it as an explicit environment. -/
structure BlockPool where
  peers : List (Nat × BPPeer)
  blocks : List (Int × Nat)
  plannedRequests : List Int
  nextRequestHeight : Int
  Height : Int
  MaxPeerHeight : Int
deriving DecidableEq, Repr

/-- Embedding of NewBlockPool. -/
def NewBlockPool (height : Int) : BlockPool :=
  { peers := [], MaxPeerHeight := 0, blocks := [], plannedRequests := [],
    nextRequestHeight := height, Height := height }

/-- Embedding of ReachedMaxHeight. -/
def BlockPool.ReachedMaxHeight (pool : BlockPool) : Bool :=
  pool.MaxPeerHeight ≤ pool.Height

/-- Embedding of rescheduleRequest: the height goes back to the planned
set, leaves the pool blocks map, and is cleared from the peer record. -/
def rescheduleRequest (pool : BlockPool) (peerID : Nat) (height : Int) : BlockPool :=
  { pool with
    plannedRequests := sinsert pool.plannedRequests height
    blocks := aerase pool.blocks height
    peers := aupdate pool.peers peerID (fun r => r.RemoveBlock height) }

/-- The maximum advertised height over a peer list, zero when empty;
mirrors the loop of updateMaxPeerHeight. -/
def maxHeights (l : List (Nat × BPPeer)) : Int :=
  l.foldl (fun m e => if e.2.height > m then e.2.height else m) 0

/-- Embedding of updateMaxPeerHeight. -/
def updateMaxPeerHeight (pool : BlockPool) : BlockPool :=
  { pool with MaxPeerHeight := maxHeights pool.peers }

/-- Embedding of deletePeer: remove the record and recompute the max
peer height when the removed peer attained it.  Cleanup only cancels the
peer timer, which is external. -/
def deletePeer (pool : BlockPool) (peer : BPPeer) : BlockPool :=
  let pool1 : BlockPool := { pool with peers := aerase pool.peers peer.id }
  if peer.height = pool1.MaxPeerHeight then updateMaxPeerHeight pool1 else pool1

/-- Embedding of RemovePeer: reschedule every height of the peer, delete
the record, and when the max peer height dropped prune the planned set
and clamp the next request height.  The error argument is only logged by
the source. -/
def RemovePeer (pool : BlockPool) (peerID : Nat) (err : Option BCError) : BlockPool :=
  match alookup pool.peers peerID with
  | none => pool
  | some peer =>
    let pool1 := (keysOf peer).foldl (fun p h => rescheduleRequest p peerID h) pool
    let oldMax := pool1.MaxPeerHeight
    let pool2 := deletePeer pool1 peer
    if pool2.MaxPeerHeight < oldMax then
      let pool3 : BlockPool :=
        { pool2 with plannedRequests :=
            pool2.plannedRequests.filter (fun h => h ≤ pool2.MaxPeerHeight) }
      if pool3.MaxPeerHeight < pool3.nextRequestHeight then
        { pool3 with nextRequestHeight := pool3.MaxPeerHeight + 1 }
      else pool3
    else pool2

/-- Embedding of UpdatePeer.  Returns the new pool together with the
error the source returns. -/
def UpdatePeer (pool : BlockPool) (peerID : Nat) (height : Int) :
    BlockPool × Option BCError :=
  match alookup pool.peers peerID with
  | none =>
    if height < pool.Height then (pool, some BCError.peerTooShort)
    else
      let peer := NewBPPeer peerID height
      (updateMaxPeerHeight { pool with peers := ainsert pool.peers peerID peer }, none)
  | some peer =>
    if height < peer.height then
      (RemovePeer pool peerID (some BCError.peerLowersItsHeight),
       some BCError.peerLowersItsHeight)
    else
      (updateMaxPeerHeight
        { pool with peers := aupdate pool.peers peerID (fun r => { r with height := height }) },
       none)

/-- Embedding of removeShortPeers: fold of RemovePeer over the peers
whose height is below the pool height.  The pool height is not changed
by RemovePeer, and RemovePeer only deletes the visited entry, so the
fold over the entry snapshot matches the Go map range. -/
def removeShortPeers (pool : BlockPool) : BlockPool :=
  pool.peers.foldl
    (fun p e => if e.2.height < p.Height then RemovePeer p e.2.id none else p) pool

/-- Embedding of removeBadPeers: first the short peers, then the peers
failing CheckRate.  The sendPeerError callback is an external effect. -/
def removeBadPeers (pool : BlockPool) : BlockPool :=
  let pool1 := removeShortPeers pool
  pool1.peers.foldl
    (fun p e =>
      match e.2.CheckRate with
      | some err => RemovePeer p e.2.id (some err)
      | none => p) pool1

/-- One planning step per fuel unit: while the planned set is smaller
than the number of requests needed and the next request height does not
exceed the max peer height, plan the next height.  The fuel is chosen so
that it never runs out before the loop guard fails. -/
def planLoop : Nat → Int → BlockPool → BlockPool
  | 0, _, pool => pool
  | fuel + 1, needed, pool =>
    if (pool.plannedRequests.length : Int) < needed ∧
        pool.nextRequestHeight ≤ pool.MaxPeerHeight then
      planLoop fuel needed
        { pool with plannedRequests := sinsert pool.plannedRequests pool.nextRequestHeight,
                    nextRequestHeight := pool.nextRequestHeight + 1 }
    else pool

/-- Embedding of makeRequestBatch: sweep bad peers, top up the planned
set, and return the planned heights sorted ascending. -/
def makeRequestBatch (pool : BlockPool) (maxNumRequests : Int) :
    BlockPool × List Int :=
  let pool1 := removeBadPeers pool
  let needed : Int := maxNumRequests - (pool1.blocks.length : Int)
  let pool2 := planLoop (pool1.MaxPeerHeight + 1 - pool1.nextRequestHeight).toNat
    needed pool1
  (pool2, pool2.plannedRequests.mergeSort (fun a b => a ≤ b))

/-- The reactor send callback: for a peer id and a height, the outcome
of toBcR.sendBlockRequest (none is success). -/
def SendEnv : Type := Nat → Int → Option BCError

/-- The peer-iteration loop of sendRequest over a snapshot of the peer
entries.  A nil-peer answer removes the peer and continues; a full queue
skips the peer; otherwise the height is assigned to the peer. -/
def sendLoop (env : SendEnv) (height : Int) :
    List (Nat × BPPeer) → BlockPool → BlockPool × Bool
  | [], pool => (pool, false)
  | e :: rest, pool =>
    if maxRequestsPerPeer ≤ e.2.pending.length then sendLoop env height rest pool
    else if e.2.height < height then sendLoop env height rest pool
    else
      match env e.2.id height with
      | some BCError.nilPeerForBlockRequest =>
        sendLoop env height rest
          (RemovePeer pool e.2.id (some BCError.nilPeerForBlockRequest))
      | some BCError.sendQueueFull => sendLoop env height rest pool
      | _ =>
        ({ pool with blocks := ainsert pool.blocks height e.2.id,
                     peers := aupdate pool.peers e.2.id (fun r => r.RequestSent height) },
         true)

/-- Embedding of sendRequest. -/
def sendRequest (env : SendEnv) (pool : BlockPool) (height : Int) :
    BlockPool × Bool :=
  sendLoop env height pool.peers pool

/-- The dispatch loop of MakeNextRequests: send each batched height in
order, erase it from the planned set on success, stop on the first
failure. -/
def dispatchLoop (env : SendEnv) : List Int → BlockPool → BlockPool
  | [], pool => pool
  | h :: rest, pool =>
    let step := sendRequest env pool h
    if step.2 then
      dispatchLoop env rest
        { step.1 with plannedRequests := serase step.1.plannedRequests h }
    else step.1

/-- Embedding of MakeNextRequests. -/
def MakeNextRequests (env : SendEnv) (pool : BlockPool) (maxNumRequests : Int) :
    BlockPool :=
  let batch := makeRequestBatch pool maxNumRequests
  dispatchLoop env batch.2 batch.1

/-- Embedding of AddBlock on the pool: reject unknown peers and blocks
whose height is assigned to a different peer, otherwise delegate to the
peer record. -/
def AddBlock (pool : BlockPool) (peerID : Nat) (block : Block) (blockSize : Int) :
    BlockPool × Option BCError :=
  match alookup pool.peers peerID with
  | none => (pool, some BCError.badDataFromPeer)
  | some peer =>
    match alookup pool.blocks block.height with
    | some wantPeerID =>
      if wantPeerID ≠ peerID then (pool, some BCError.badDataFromPeer)
      else
        let step := peer.AddBlock block blockSize
        ({ pool with peers := aupdate pool.peers peerID (fun _ => step.1) }, step.2)
    | none =>
      let step := peer.AddBlock block blockSize
      ({ pool with peers := aupdate pool.peers peerID (fun _ => step.1) }, step.2)

/-- Embedding of BlockAndPeerAtHeight.  The source reads the zero-value
peer id when the height is unassigned and then fails the peer lookup;
the embedding returns the missing-block error directly in that case. -/
def BlockAndPeerAtHeight (pool : BlockPool) (height : Int) :
    Except BCError (Block × BPPeer) :=
  match alookup pool.blocks height with
  | none => Except.error BCError.missingBlock
  | some peerID =>
    match alookup pool.peers peerID with
    | none => Except.error BCError.missingBlock
    | some peer =>
      match peer.BlockAtHeight height with
      | .error e => .error e
      | .ok b => .ok (b, peer)

/-- Embedding of InvalidateFirstTwoBlocks: both lookups happen before
either removal, exactly as in the source. -/
def InvalidateFirstTwoBlocks (pool : BlockPool) (err : Option BCError) : BlockPool :=
  let r1 := BlockAndPeerAtHeight pool pool.Height
  let r2 := BlockAndPeerAtHeight pool (pool.Height + 1)
  let pool1 :=
    match r1 with
    | .ok bd => RemovePeer pool bd.2.id err
    | .error _ => pool
  match r2 with
  | .ok bd => RemovePeer pool1 bd.2.id err
  | .error _ => pool1

/-- Embedding of ProcessedCurrentHeightBlock: clear the block at the
pool height from its peer and from the blocks map, advance the height,
then drop the peers that became short. -/
def ProcessedCurrentHeightBlock (pool : BlockPool) : BlockPool :=
  let pool1 :=
    match alookup pool.blocks pool.Height with
    | some peerID =>
      { pool with peers := aupdate pool.peers peerID (fun r => r.RemoveBlock pool.Height) }
    | none => pool
  let pool2 : BlockPool := { pool1 with blocks := aerase pool1.blocks pool1.Height }
  let pool3 : BlockPool := { pool2 with Height := pool2.Height + 1 }
  removeShortPeers pool3

/-- Embedding of RemovePeerAtCurrentHeights: remove the delivery peer at
the pool height when it has not delivered the block there; otherwise do
the same check at the next height.  At most one peer is removed. -/
def RemovePeerAtCurrentHeights (pool : BlockPool) (err : Option BCError) : BlockPool :=
  let firstMissing : Option Nat :=
    match alookup pool.blocks pool.Height with
    | some peerID =>
      match alookup pool.peers peerID with
      | some peer =>
        if (peer.BlockAtHeight pool.Height).isOk then none else some peerID
      | none => none
    | none => none
  match firstMissing with
  | some peerID => RemovePeer pool peerID err
  | none =>
    match alookup pool.blocks (pool.Height + 1) with
    | some peerID =>
      match alookup pool.peers peerID with
      | some peer =>
        if (peer.BlockAtHeight (pool.Height + 1)).isOk then pool
        else RemovePeer pool peerID err
      | none => pool
    | none => pool

/-- Iterated RemoveBlock, the effect on a peer record of rescheduling a
list of heights. -/
def removeAll (hs : List Int) (r : BPPeer) : BPPeer :=
  hs.foldl (fun a h => a.RemoveBlock h) r

/-- The fold of rescheduleRequest over a list of heights. -/
def reschedFold (pid : Nat) (hs : List Int) (pool : BlockPool) : BlockPool :=
  hs.foldl (fun p h => rescheduleRequest p pid h) pool

/-- A blocks-map entry points at a live peer that knows the height and
whose advertised height covers it. -/
def blocksLiveAt (pool : BlockPool) (e : Int × Nat) : Prop :=
  ∃ r, alookup pool.peers e.2 = some r ∧ e.1 ∈ keysOf r ∧ e.1 ≤ r.height

instance blocksLiveAtDec (pool : BlockPool) (e : Int × Nat) :
    Decidable (blocksLiveAt pool e) :=
  match hl : alookup pool.peers e.2 with
  | some r =>
    decidable_of_iff (e.1 ∈ keysOf r ∧ e.1 ≤ r.height)
      (by
        constructor
        · intro hc
          exact ⟨r, hl, hc⟩
        · rintro ⟨r2, hl2, hc⟩
          rw [hl] at hl2
          cases hl2
          exact hc)
  | none =>
    isFalse (by
      rintro ⟨r2, hl2, _⟩
      rw [hl] at hl2
      cases hl2)

/-- The inductive invariant of the pool: key sets are duplicate free,
the planned set and the blocks map are disjoint, every planned or
assigned height is below the next request height and within the max
peer height, assigned heights point at live peers that know them, peer
records carry their own key and their heights are all assigned to them,
and the stored max peer height is the maximum over the peer records. -/
def PoolInv (pool : BlockPool) : Prop :=
  (pool.peers.map Prod.fst).Nodup ∧
  (pool.blocks.map Prod.fst).Nodup ∧
  pool.plannedRequests.Nodup ∧
  (∀ h ∈ pool.plannedRequests, alookup pool.blocks h = none) ∧
  (∀ h ∈ pool.plannedRequests, h < pool.nextRequestHeight ∧ h ≤ pool.MaxPeerHeight) ∧
  (∀ e ∈ pool.blocks, e.1 < pool.nextRequestHeight ∧ blocksLiveAt pool e) ∧
  (∀ e ∈ pool.peers, e.2.id = e.1 ∧ ∀ h ∈ keysOf e.2, alookup pool.blocks h = some e.1) ∧
  pool.MaxPeerHeight = maxHeights pool.peers

instance PoolInvDec (pool : BlockPool) : Decidable (PoolInv pool) := by
  unfold PoolInv
  infer_instance

/-- The pool state after the reschedule fold and the peer deletion inside
RemovePeer. -/
def removePhase2 (pool : BlockPool) (pid : Nat) (rec : BPPeer) : BlockPool :=
  deletePeer (reschedFold pid (keysOf rec) pool) rec

/-- Minimal embedding of types.Evidence: only the hash is observed. -/
structure Evidence where
  hash : Nat
deriving DecidableEq, Repr

/-- Errors of the evidence package (errors.go) together with a catchall
for any other error AddEvidence may surface. -/
inductive EvError : Type
  | invalidEvidence (ev : Evidence)
  | alreadyStored (ev : Evidence)
  | other
deriving DecidableEq, Repr

/-- Embedding of ctypes.ResultBroadcastEvidence. -/
structure ResultBroadcastEvidence where
  Hash : Nat
deriving DecidableEq, Repr

/-- Embedding of BroadcastEvidence (rpc/core/evidence.go): the
evidence-pool AddEvidence call is the external parameter; the type
switch treats nil and ErrEvidenceAlreadyStored as success. -/
def BroadcastEvidence (addEvidence : Evidence → Option EvError) (ev : Evidence) :
    Except EvError ResultBroadcastEvidence :=
  match addEvidence ev with
  | none => Except.ok { Hash := ev.hash }
  | some (EvError.alreadyStored _) => Except.ok { Hash := ev.hash }
  | some err => Except.error err

/-- A concrete pool witnessing the reschedule conservation law: two
peers, height 3 assigned to the tallest peer, height 4 planned. -/
def consPool : BlockPool :=
  { peers := [(1, ⟨1, 10, [3], [], false⟩), (2, ⟨2, 8, [], [], false⟩)],
    blocks := [(3, 1)], plannedRequests := [4], nextRequestHeight := 5,
    Height := 1, MaxPeerHeight := 10 }

/-- A pool with two peers of heights 20 and 8, used to witness the
clamping behaviour of RemovePeer. -/
def tallPool : BlockPool :=
  { peers := [(1, ⟨1, 20, [], [], false⟩), (2, ⟨2, 8, [], [], false⟩)]
    blocks := []
    plannedRequests := [9]
    nextRequestHeight := 21
    Height := 1
    MaxPeerHeight := 20 }

/-- A pool in which the block at height 5 is assigned to peer 1, used
to witness the bad-data rejection of AddBlock. -/
def assignedPool : BlockPool :=
  { peers := [(1, ⟨1, 10, [5], [], false⟩), (2, ⟨2, 10, [], [], false⟩)]
    blocks := [(5, 1)]
    plannedRequests := []
    nextRequestHeight := 6
    Height := 1
    MaxPeerHeight := 10 }

/-- A pool with a single peer of height 10 and the height 5 planned; it
satisfies the pool invariant and refutes the unconditional
planned-retention reading of the dispatch claim. -/
def nilPool : BlockPool :=
  { peers := [(1, ⟨1, 10, [], [], false⟩)]
    blocks := []
    plannedRequests := [5]
    nextRequestHeight := 11
    Height := 1
    MaxPeerHeight := 10 }

/-- A send environment that always answers nil-peer, so every send
attempt removes the asked peer. -/
def nilEnv : SendEnv := fun _ _ => some BCError.nilPeerForBlockRequest

/-- A send environment whose queue is always full. -/
def qfEnv : SendEnv := fun _ _ => some BCError.sendQueueFull

/-! ## Library lemmas for the association-list embedding -/
theorem mem_of_alookup {α β : Type} [DecidableEq α] {l : List (α × β)} {k : α} {v : β}
    (h : alookup l k = some v) : (k, v) ∈ l := by
  induction l with
  | nil => simp [alookup] at h
  | cons e rest ih =>
    by_cases hk : e.1 = k
    · simp only [alookup, hk, if_pos] at h
      cases e
      simp_all
    · simp only [alookup, hk, if_neg, not_false_iff] at h
      exact List.mem_cons_of_mem _ (ih h)

theorem alookup_of_mem_nodup {α β : Type} [DecidableEq α] {l : List (α × β)} {k : α} {v : β}
    (hm : (k, v) ∈ l) (hn : (l.map Prod.fst).Nodup) : alookup l k = some v := by
  induction l with
  | nil => simp at hm
  | cons e rest ih =>
    simp only [List.map_cons, List.nodup_cons] at hn
    rcases List.mem_cons.mp hm with h1 | h1
    · cases h1
      simp [alookup]
    · have hne : e.1 ≠ k := by
        intro hk
        exact hn.1 (hk ▸ List.mem_map.mpr ⟨(k, v), h1, rfl⟩)
      simp [alookup, hne, ih h1 hn.2]

theorem alookup_isSome_iff {α β : Type} [DecidableEq α] {l : List (α × β)} {k : α} :
    (alookup l k).isSome = true ↔ k ∈ l.map Prod.fst := by
  induction l with
  | nil => simp [alookup]
  | cons e rest ih =>
    by_cases hk : e.1 = k
    · simp [alookup, hk]
    · simp [alookup, hk, ih, Ne.symm hk]

theorem alookup_eq_none_iff {α β : Type} [DecidableEq α] {l : List (α × β)} {k : α} :
    alookup l k = none ↔ k ∉ l.map Prod.fst := by
  rw [← alookup_isSome_iff]
  cases alookup l k <;> simp

theorem alookup_aerase {α β : Type} [DecidableEq α] (l : List (α × β)) (k k0 : α) :
    alookup (aerase l k) k0 = if k0 = k then none else alookup l k0 := by
  induction l with
  | nil => simp [aerase, alookup]
  | cons e rest ih =>
    by_cases he : e.1 = k
    · have hstep : aerase (e :: rest) k = aerase rest k := by
        simp [aerase, List.filter_cons, he]
      rw [hstep, ih]
      by_cases h0 : k0 = k
      · simp [h0]
      · have hne : e.1 ≠ k0 := by rw [he]; exact fun hc => h0 hc.symm
        simp [h0, alookup, hne]
    · have hstep : aerase (e :: rest) k = e :: aerase rest k := by
        simp [aerase, List.filter_cons, he]
      rw [hstep]
      by_cases h1 : e.1 = k0
      · have h0 : k0 ≠ k := fun hc => he (h1.trans hc)
        simp [alookup, h1, h0]
      · simp [alookup, h1, ih]

theorem keys_aerase_sublist {α β : Type} [DecidableEq α] (l : List (α × β)) (k : α) :
    ((aerase l k).map Prod.fst).Sublist (l.map Prod.fst) :=
  (List.filter_sublist l).map Prod.fst

theorem mem_aerase {α β : Type} [DecidableEq α] {l : List (α × β)} {k : α} {e : α × β} :
    e ∈ aerase l k ↔ e ∈ l ∧ e.1 ≠ k := by
  simp [aerase, List.mem_filter]

theorem alookup_cons {α β : Type} [DecidableEq α] (e : α × β) (rest : List (α × β))
    (k0 : α) :
    alookup (e :: rest) k0 = if e.1 = k0 then some e.2 else alookup rest k0 := rfl

theorem aupdate_cons {α β : Type} [DecidableEq α] (e : α × β) (l : List (α × β))
    (k : α) (f : β → β) :
    aupdate (e :: l) k f = (if e.1 = k then (e.1, f e.2) else e) :: aupdate l k f := rfl

theorem alookup_aupdate {α β : Type} [DecidableEq α] (l : List (α × β)) (k k0 : α)
    (f : β → β) :
    alookup (aupdate l k f) k0 =
      if k0 = k then (alookup l k).map f else alookup l k0 := by
  induction l with
  | nil => simp [aupdate, alookup]
  | cons e rest ih =>
    rw [aupdate_cons]
    simp only [alookup_cons]
    by_cases h0 : k0 = k
    · subst h0
      by_cases he : e.1 = k0
      · simp [he]
      · simp [he, ih]
    · by_cases he : e.1 = k
      · have hne : ¬ e.1 = k0 := fun hc => h0 (hc.symm.trans he)
        have hke : ¬ k = k0 := fun hc => h0 hc.symm
        simp [he, hne, hke, h0, ih]
      · by_cases h1 : e.1 = k0 <;> simp [he, h0, h1, ih]

theorem keys_aupdate {α β : Type} [DecidableEq α] (l : List (α × β)) (k : α) (f : β → β) :
    (aupdate l k f).map Prod.fst = l.map Prod.fst := by
  induction l with
  | nil => rfl
  | cons e rest ih =>
    rw [aupdate_cons, List.map_cons, List.map_cons, ih]
    congr 1
    by_cases h : e.1 = k <;> simp [h]

theorem mem_aupdate_of_ne {α β : Type} [DecidableEq α] {l : List (α × β)} {k : α}
    {f : β → β} {e : α × β} (hm : e ∈ l) (hne : e.1 ≠ k) : e ∈ aupdate l k f := by
  have : (if e.1 = k then (e.1, f e.2) else e) ∈ aupdate l k f :=
    List.mem_map.mpr ⟨e, hm, rfl⟩
  simpa [hne] using this

theorem mem_of_mem_aupdate {α β : Type} [DecidableEq α] {l : List (α × β)} {k : α}
    {f : β → β} {e : α × β} (hm : e ∈ aupdate l k f) (hne : e.1 ≠ k) : e ∈ l := by
  rcases List.mem_map.mp hm with ⟨a, ha, hae⟩
  by_cases hak : a.1 = k
  · rw [if_pos hak] at hae
    have hek : e.1 = k := by rw [← hae]; exact hak
    exact absurd hek hne
  · rw [if_neg hak] at hae
    exact hae ▸ ha

theorem mem_aupdate_elim {α β : Type} [DecidableEq α] {l : List (α × β)} {k : α}
    {f : β → β} {e : α × β} (hm : e ∈ aupdate l k f) :
    e ∈ l ∨ ∃ v, (k, v) ∈ l ∧ e = (k, f v) := by
  rcases List.mem_map.mp hm with ⟨a, ha, hae⟩
  by_cases hak : a.1 = k
  · right
    refine ⟨a.2, ?_, ?_⟩
    · rw [← hak]; exact ha
    · rw [← hae, if_pos hak, hak]
  · left
    rw [← hae, if_neg hak]
    exact ha

theorem aupdate_id {α β : Type} [DecidableEq α] (l : List (α × β)) (k : α) :
    aupdate l k (fun v => v) = l := by
  induction l with
  | nil => rfl
  | cons e rest ih =>
    rw [aupdate_cons, ih]
    congr 1
    by_cases h : e.1 = k
    · rw [if_pos h]
    · rw [if_neg h]

theorem aupdate_aupdate {α β : Type} [DecidableEq α] (l : List (α × β)) (k : α)
    (f g : β → β) : aupdate (aupdate l k f) k g = aupdate l k (fun v => g (f v)) := by
  induction l with
  | nil => rfl
  | cons e rest ih =>
    rw [aupdate_cons, aupdate_cons, aupdate_cons, ih]
    congr 1
    by_cases h : e.1 = k
    · simp only [if_pos h]
    · simp only [if_neg h]

theorem alookup_ainsert_self {α β : Type} [DecidableEq α] (l : List (α × β)) (k : α)
    (v : β) : alookup (ainsert l k v) k = some v := by
  induction l with
  | nil => simp [ainsert, alookup]
  | cons e rest ih =>
    by_cases he : e.1 = k <;> simp [ainsert, alookup, he, ih]

theorem alookup_ainsert_ne {α β : Type} [DecidableEq α] (l : List (α × β)) (k k0 : α)
    (v : β) (h : k0 ≠ k) : alookup (ainsert l k v) k0 = alookup l k0 := by
  have hk : ¬ k = k0 := fun hc => h hc.symm
  induction l with
  | nil => simp [ainsert, alookup, hk]
  | cons e rest ih =>
    by_cases he : e.1 = k
    · have hne : ¬ e.1 = k0 := fun hc => h (hc.symm.trans he)
      simp [ainsert, alookup, he, hne, hk]
    · by_cases h1 : e.1 = k0 <;> simp [ainsert, alookup, he, h1, ih, h]

theorem keys_ainsert_mem {α β : Type} [DecidableEq α] {l : List (α × β)} {k x : α}
    {v : β} : x ∈ (ainsert l k v).map Prod.fst ↔ x = k ∨ x ∈ l.map Prod.fst := by
  induction l with
  | nil => simp [ainsert]
  | cons e rest ih =>
    by_cases he : e.1 = k
    · subst he
      simp [ainsert]
    · simp [ainsert, he, ih]
      tauto

theorem keys_ainsert_nodup {α β : Type} [DecidableEq α] {l : List (α × β)} (k : α)
    (v : β) (hn : (l.map Prod.fst).Nodup) : ((ainsert l k v).map Prod.fst).Nodup := by
  induction l with
  | nil => simp [ainsert]
  | cons e rest ih =>
    simp only [List.map_cons, List.nodup_cons] at hn
    by_cases he : e.1 = k
    · subst he
      simpa [ainsert] using hn
    · have : e.1 ∉ (ainsert rest k v).map Prod.fst := by
        rw [keys_ainsert_mem]
        rintro (rfl | hmem)
        · exact he rfl
        · exact hn.1 hmem
      simp [ainsert, he, List.nodup_cons, this, ih hn.2]

theorem mem_ainsert_elim {α β : Type} [DecidableEq α] {l : List (α × β)} {k : α}
    {v : β} {e : α × β} (hm : e ∈ ainsert l k v) : e = (k, v) ∨ e ∈ l := by
  induction l with
  | nil => exact Or.inl (by simpa [ainsert] using hm)
  | cons a rest ih =>
    by_cases ha : a.1 = k
    · simp only [ainsert, ha, if_pos] at hm
      rcases List.mem_cons.mp hm with h1 | h1
      · exact Or.inl h1
      · exact Or.inr (List.mem_cons_of_mem _ h1)
    · simp only [ainsert, ha, if_neg, not_false_iff] at hm
      rcases List.mem_cons.mp hm with h1 | h1
      · exact Or.inr (h1 ▸ List.mem_cons_self _ _)
      · rcases ih h1 with h2 | h2
        · exact Or.inl h2
        · exact Or.inr (List.mem_cons_of_mem _ h2)

theorem mem_sinsert {α : Type} [DecidableEq α] {l : List α} {x y : α} :
    y ∈ sinsert l x ↔ y ∈ l ∨ y = x := by
  unfold sinsert
  by_cases h : x ∈ l
  · simp only [if_pos h]
    constructor
    · exact Or.inl
    · rintro (hy | rfl) <;> [exact hy; exact h]
  · simp [if_neg h]

theorem nodup_sinsert {α : Type} [DecidableEq α] {l : List α} (x : α) (hn : l.Nodup) :
    (sinsert l x).Nodup := by
  unfold sinsert
  by_cases h : x ∈ l
  · simpa [if_pos h] using hn
  · simp only [if_neg h]
    simpa [List.nodup_append] using ⟨hn, fun hc => h hc⟩

theorem mem_serase {α : Type} [DecidableEq α] {l : List α} {x y : α} :
    y ∈ serase l x ↔ y ∈ l ∧ y ≠ x := by
  simp [serase, List.mem_filter]

theorem nodup_serase {α : Type} [DecidableEq α] {l : List α} (x : α) (hn : l.Nodup) :
    (serase l x).Nodup := hn.filter _

/-! ## Lemmas about the maximum peer height -/
theorem foldlMax_init_le (l : List (Nat × BPPeer)) (acc : Int) :
    acc ≤ l.foldl (fun m e => if e.2.height > m then e.2.height else m) acc := by
  induction l generalizing acc with
  | nil => simp
  | cons e rest ih =>
    refine le_trans ?_ (ih _)
    by_cases h : e.2.height > acc <;> simp [h] <;> omega

theorem foldlMax_mem_le {l : List (Nat × BPPeer)} {e : Nat × BPPeer} (hm : e ∈ l)
    (acc : Int) :
    e.2.height ≤ l.foldl (fun m a => if a.2.height > m then a.2.height else m) acc := by
  induction l generalizing acc with
  | nil => simp at hm
  | cons a rest ih =>
    rcases List.mem_cons.mp hm with rfl | h1
    · refine le_trans ?_ (foldlMax_init_le rest _)
      by_cases h : e.2.height > acc <;> simp [h] <;> omega
    · exact ih h1 _

theorem foldlMax_le : ∀ (l : List (Nat × BPPeer)) (acc b : Int), acc ≤ b →
    (∀ e ∈ l, e.2.height ≤ b) →
    l.foldl (fun m a => if a.2.height > m then a.2.height else m) acc ≤ b := by
  intro l
  induction l with
  | nil =>
    intro acc b h _
    simpa using h
  | cons a rest ih =>
    intro acc b hacc hall
    have ha := hall a (List.mem_cons_self _ _)
    have hstep : (if a.2.height > acc then a.2.height else acc) ≤ b := by
      by_cases h : a.2.height > acc <;> simp [h] <;> omega
    exact ih _ _ hstep (fun e he => hall e (List.mem_cons_of_mem _ he))

theorem foldlMax_cases (l : List (Nat × BPPeer)) (acc : Int) :
    l.foldl (fun m a => if a.2.height > m then a.2.height else m) acc = acc ∨
      ∃ e ∈ l, l.foldl (fun m a => if a.2.height > m then a.2.height else m) acc
        = e.2.height := by
  induction l generalizing acc with
  | nil => exact Or.inl rfl
  | cons a rest ih =>
    by_cases h : a.2.height > acc
    · rcases ih a.2.height with h1 | ⟨e, he, h1⟩
      · simp only [List.foldl_cons, if_pos h]
        exact Or.inr ⟨a, List.mem_cons_self _ _, h1⟩
      · simp only [List.foldl_cons, if_pos h]
        exact Or.inr ⟨e, List.mem_cons_of_mem _ he, h1⟩
    · rcases ih acc with h1 | ⟨e, he, h1⟩
      · simp only [List.foldl_cons, if_neg h]
        exact Or.inl h1
      · simp only [List.foldl_cons, if_neg h]
        exact Or.inr ⟨e, List.mem_cons_of_mem _ he, h1⟩

theorem maxHeights_nonneg (l : List (Nat × BPPeer)) : 0 ≤ maxHeights l :=
  foldlMax_init_le l 0

theorem height_le_maxHeights {l : List (Nat × BPPeer)} {e : Nat × BPPeer} (hm : e ∈ l) :
    e.2.height ≤ maxHeights l := foldlMax_mem_le hm 0

theorem maxHeights_le {l : List (Nat × BPPeer)} {b : Int} (hb : 0 ≤ b)
    (hall : ∀ e ∈ l, e.2.height ≤ b) : maxHeights l ≤ b := foldlMax_le l 0 b hb hall

theorem maxHeights_cases (l : List (Nat × BPPeer)) :
    maxHeights l = 0 ∨ ∃ e ∈ l, maxHeights l = e.2.height := foldlMax_cases l 0

theorem maxHeights_congr {l l2 : List (Nat × BPPeer)}
    (h : l.map (fun e => e.2.height) = l2.map (fun e => e.2.height)) :
    maxHeights l = maxHeights l2 := by
  unfold maxHeights
  rw [← List.foldl_map (fun e : Nat × BPPeer => e.2.height)
        (fun m v => if v > m then v else m),
      ← List.foldl_map (fun e : Nat × BPPeer => e.2.height)
        (fun m v => if v > m then v else m), h]

theorem heights_aupdate (l : List (Nat × BPPeer)) (k : Nat) (f : BPPeer → BPPeer)
    (hf : ∀ r, (f r).height = r.height) :
    (aupdate l k f).map (fun e => e.2.height) = l.map (fun e => e.2.height) := by
  induction l with
  | nil => rfl
  | cons e rest ih =>
    rw [aupdate_cons, List.map_cons, List.map_cons, ih]
    congr 1
    by_cases h : e.1 = k <;> simp [h, hf]

theorem maxHeights_aupdate (l : List (Nat × BPPeer)) (k : Nat) (f : BPPeer → BPPeer)
    (hf : ∀ r, (f r).height = r.height) : maxHeights (aupdate l k f) = maxHeights l :=
  maxHeights_congr (heights_aupdate l k f hf)

/-! ## Characterization of the reschedule fold inside RemovePeer -/
theorem keys_aerase_mem {α β : Type} [DecidableEq α] {l : List (α × β)} {k x : α} :
    x ∈ (aerase l k).map Prod.fst ↔ x ∈ l.map Prod.fst ∧ x ≠ k := by
  constructor
  · intro hx
    rcases List.mem_map.mp hx with ⟨e, he, rfl⟩
    rcases mem_aerase.mp he with ⟨hel, hek⟩
    exact ⟨List.mem_map.mpr ⟨e, hel, rfl⟩, hek⟩
  · rintro ⟨hx, hxk⟩
    rcases List.mem_map.mp hx with ⟨e, he, rfl⟩
    exact List.mem_map.mpr ⟨e, mem_aerase.mpr ⟨he, hxk⟩, rfl⟩

theorem removeAll_id (hs : List Int) (r : BPPeer) : (removeAll hs r).id = r.id := by
  induction hs generalizing r with
  | nil => rfl
  | cons h t ih => exact (ih _).trans rfl

theorem removeAll_height (hs : List Int) (r : BPPeer) :
    (removeAll hs r).height = r.height := by
  induction hs generalizing r with
  | nil => rfl
  | cons h t ih => exact (ih _).trans rfl

theorem keysOf_RemoveBlock {r : BPPeer} {h x : Int} :
    x ∈ keysOf (r.RemoveBlock h) ↔ x ∈ keysOf r ∧ x ≠ h := by
  simp only [keysOf, BPPeer.RemoveBlock, List.mem_append, mem_serase, keys_aerase_mem]
  tauto

theorem keysOf_removeAll {hs : List Int} {r : BPPeer} {x : Int} :
    x ∈ keysOf (removeAll hs r) ↔ x ∈ keysOf r ∧ x ∉ hs := by
  induction hs generalizing r with
  | nil => simp [removeAll]
  | cons h t ih =>
    show x ∈ keysOf (removeAll t (r.RemoveBlock h)) ↔ _
    rw [ih, keysOf_RemoveBlock]
    simp only [List.mem_cons]
    tauto

theorem reschedFold_next (pid : Nat) (hs : List Int) (pool : BlockPool) :
    (reschedFold pid hs pool).nextRequestHeight = pool.nextRequestHeight := by
  induction hs generalizing pool with
  | nil => rfl
  | cons h t ih => exact (ih _).trans rfl

theorem reschedFold_Height (pid : Nat) (hs : List Int) (pool : BlockPool) :
    (reschedFold pid hs pool).Height = pool.Height := by
  induction hs generalizing pool with
  | nil => rfl
  | cons h t ih => exact (ih _).trans rfl

theorem reschedFold_Max (pid : Nat) (hs : List Int) (pool : BlockPool) :
    (reschedFold pid hs pool).MaxPeerHeight = pool.MaxPeerHeight := by
  induction hs generalizing pool with
  | nil => rfl
  | cons h t ih => exact (ih _).trans rfl

theorem reschedFold_planned_mem (pid : Nat) (hs : List Int) (pool : BlockPool)
    (x : Int) :
    x ∈ (reschedFold pid hs pool).plannedRequests ↔
      x ∈ pool.plannedRequests ∨ x ∈ hs := by
  induction hs generalizing pool with
  | nil => simp [reschedFold]
  | cons h t ih =>
    show x ∈ (reschedFold pid t (rescheduleRequest pool pid h)).plannedRequests ↔ _
    rw [ih]
    simp only [rescheduleRequest, mem_sinsert, List.mem_cons]
    tauto

theorem reschedFold_planned_nodup (pid : Nat) (hs : List Int) (pool : BlockPool)
    (hn : pool.plannedRequests.Nodup) :
    (reschedFold pid hs pool).plannedRequests.Nodup := by
  induction hs generalizing pool with
  | nil => exact hn
  | cons h t ih => exact ih _ (nodup_sinsert _ hn)

theorem reschedFold_blocks (pid : Nat) (hs : List Int) (pool : BlockPool) (k : Int) :
    alookup (reschedFold pid hs pool).blocks k =
      if k ∈ hs then none else alookup pool.blocks k := by
  induction hs generalizing pool with
  | nil => simp [reschedFold]
  | cons h t ih =>
    show alookup (reschedFold pid t (rescheduleRequest pool pid h)).blocks k = _
    rw [ih]
    by_cases hk : k ∈ t
    · simp [hk, List.mem_cons]
    · simp only [rescheduleRequest]
      rw [alookup_aerase]
      by_cases hkh : k = h
      · simp [hk, hkh]
      · simp [hk, hkh, List.mem_cons]

theorem reschedFold_blocks_keys (pid : Nat) (hs : List Int) (pool : BlockPool) :
    ((reschedFold pid hs pool).blocks.map Prod.fst).Sublist
      (pool.blocks.map Prod.fst) := by
  induction hs generalizing pool with
  | nil => exact List.Sublist.refl _
  | cons h t ih =>
    exact List.Sublist.trans (ih (rescheduleRequest pool pid h))
      (keys_aerase_sublist _ _)

theorem reschedFold_peers (pid : Nat) (hs : List Int) (pool : BlockPool) :
    (reschedFold pid hs pool).peers = aupdate pool.peers pid (removeAll hs) := by
  induction hs generalizing pool with
  | nil => exact (aupdate_id pool.peers pid).symm
  | cons h t ih =>
    show (reschedFold pid t (rescheduleRequest pool pid h)).peers = _
    rw [ih]
    show aupdate (aupdate pool.peers pid fun r => r.RemoveBlock h) pid (removeAll t) = _
    rw [aupdate_aupdate]
    rfl

theorem PoolInv.nodupPeers {pool : BlockPool} (hI : PoolInv pool) :
    (pool.peers.map Prod.fst).Nodup := hI.1

theorem PoolInv.nodupBlocks {pool : BlockPool} (hI : PoolInv pool) :
    (pool.blocks.map Prod.fst).Nodup := hI.2.1

theorem PoolInv.nodupPlanned {pool : BlockPool} (hI : PoolInv pool) :
    pool.plannedRequests.Nodup := hI.2.2.1

theorem PoolInv.disj {pool : BlockPool} (hI : PoolInv pool) :
    ∀ h ∈ pool.plannedRequests, alookup pool.blocks h = none := hI.2.2.2.1

theorem PoolInv.plannedBound {pool : BlockPool} (hI : PoolInv pool) :
    ∀ h ∈ pool.plannedRequests,
      h < pool.nextRequestHeight ∧ h ≤ pool.MaxPeerHeight := hI.2.2.2.2.1

theorem PoolInv.blocksBound {pool : BlockPool} (hI : PoolInv pool) :
    ∀ e ∈ pool.blocks, e.1 < pool.nextRequestHeight ∧ blocksLiveAt pool e :=
  hI.2.2.2.2.2.1

theorem PoolInv.peerGood {pool : BlockPool} (hI : PoolInv pool) :
    ∀ e ∈ pool.peers,
      e.2.id = e.1 ∧ ∀ h ∈ keysOf e.2, alookup pool.blocks h = some e.1 :=
  hI.2.2.2.2.2.2.1

theorem PoolInv.maxSync {pool : BlockPool} (hI : PoolInv pool) :
    pool.MaxPeerHeight = maxHeights pool.peers := hI.2.2.2.2.2.2.2

theorem PoolInv.maxNonneg {pool : BlockPool} (hI : PoolInv pool) : 0 ≤ pool.MaxPeerHeight :=
  hI.maxSync ▸ maxHeights_nonneg pool.peers

theorem PoolInv.lookup_id {pool : BlockPool} (hI : PoolInv pool) {q : Nat} {r : BPPeer}
    (hl : alookup pool.peers q = some r) : r.id = q :=
  (hI.peerGood (q, r) (mem_of_alookup hl)).1

theorem PoolInv.lookup_height_le {pool : BlockPool} (hI : PoolInv pool) {q : Nat} {r : BPPeer}
    (hl : alookup pool.peers q = some r) : r.height ≤ pool.MaxPeerHeight :=
  hI.maxSync ▸ height_le_maxHeights (mem_of_alookup hl)

theorem PoolInv.blocks_lookup {pool : BlockPool} (hI : PoolInv pool) {k : Int} {q : Nat}
    (hl : alookup pool.blocks k = some q) :
    k < pool.nextRequestHeight ∧ blocksLiveAt pool (k, q) :=
  hI.blocksBound (k, q) (mem_of_alookup hl)

theorem alookup_none_of_bound {bl : List (Int × Nat)} {k : Int}
    (hb : ∀ e ∈ bl, e.1 < k) : alookup bl k = none := by
  cases hl : alookup bl k with
  | none => rfl
  | some q =>
    have := hb (k, q) (mem_of_alookup hl)
    omega

theorem reschedFold_blocks_mem (pid : Nat) (hs : List Int) (pool : BlockPool)
    (e : Int × Nat) :
    e ∈ (reschedFold pid hs pool).blocks ↔ e ∈ pool.blocks ∧ e.1 ∉ hs := by
  induction hs generalizing pool with
  | nil => simp [reschedFold]
  | cons h t ih =>
    show e ∈ (reschedFold pid t (rescheduleRequest pool pid h)).blocks ↔ _
    rw [ih]
    simp only [rescheduleRequest, mem_aerase, List.mem_cons]
    tauto

theorem RemovePeer_eq (pool : BlockPool) (pid : Nat) (err : Option BCError)
    (rec : BPPeer) (hl : alookup pool.peers pid = some rec) :
    RemovePeer pool pid err =
      (if (removePhase2 pool pid rec).MaxPeerHeight <
          (reschedFold pid (keysOf rec) pool).MaxPeerHeight then
        if (removePhase2 pool pid rec).MaxPeerHeight <
            (removePhase2 pool pid rec).nextRequestHeight then
          { removePhase2 pool pid rec with
            plannedRequests := (removePhase2 pool pid rec).plannedRequests.filter
              (fun h => h ≤ (removePhase2 pool pid rec).MaxPeerHeight),
            nextRequestHeight := (removePhase2 pool pid rec).MaxPeerHeight + 1 }
        else
          { removePhase2 pool pid rec with
            plannedRequests := (removePhase2 pool pid rec).plannedRequests.filter
              (fun h => h ≤ (removePhase2 pool pid rec).MaxPeerHeight) }
      else removePhase2 pool pid rec) := by
  unfold RemovePeer removePhase2 reschedFold
  rw [hl]

theorem RemovePeer_eq_of_none (pool : BlockPool) (pid : Nat) (err : Option BCError)
    (h : alookup pool.peers pid = none) : RemovePeer pool pid err = pool := by
  unfold RemovePeer
  rw [h]

theorem deletePeer_peers (pool : BlockPool) (rec : BPPeer) :
    (deletePeer pool rec).peers = aerase pool.peers rec.id := by
  unfold deletePeer updateMaxPeerHeight
  dsimp only
  split <;> rfl

theorem deletePeer_blocks (pool : BlockPool) (rec : BPPeer) :
    (deletePeer pool rec).blocks = pool.blocks := by
  unfold deletePeer updateMaxPeerHeight
  dsimp only
  split <;> rfl

theorem deletePeer_planned (pool : BlockPool) (rec : BPPeer) :
    (deletePeer pool rec).plannedRequests = pool.plannedRequests := by
  unfold deletePeer updateMaxPeerHeight
  dsimp only
  split <;> rfl

theorem deletePeer_next (pool : BlockPool) (rec : BPPeer) :
    (deletePeer pool rec).nextRequestHeight = pool.nextRequestHeight := by
  unfold deletePeer updateMaxPeerHeight
  dsimp only
  split <;> rfl

theorem deletePeer_Height (pool : BlockPool) (rec : BPPeer) :
    (deletePeer pool rec).Height = pool.Height := by
  unfold deletePeer updateMaxPeerHeight
  dsimp only
  split <;> rfl

theorem deletePeer_Max (pool : BlockPool) (rec : BPPeer) :
    (deletePeer pool rec).MaxPeerHeight =
      if rec.height = pool.MaxPeerHeight then maxHeights (aerase pool.peers rec.id)
      else pool.MaxPeerHeight := by
  unfold deletePeer updateMaxPeerHeight
  dsimp only
  split <;> simp_all

theorem maxHeights_aerase_eq (l : List (Nat × BPPeer)) (pid : Nat) (rec : BPPeer)
    (hn : (l.map Prod.fst).Nodup) (hmem : (pid, rec) ∈ l)
    (hne : rec.height ≠ maxHeights l) : maxHeights (aerase l pid) = maxHeights l := by
  apply le_antisymm
  · apply maxHeights_le (maxHeights_nonneg l)
    intro e he
    exact height_le_maxHeights (mem_aerase.mp he).1
  · rcases maxHeights_cases l with h0 | ⟨e, he, heq⟩
    · rw [h0]
      exact maxHeights_nonneg _
    · by_cases hc : e.1 = pid
      · have h1 : alookup l pid = some rec := alookup_of_mem_nodup hmem hn
        have h2 : alookup l e.1 = some e.2 := alookup_of_mem_nodup (by simpa using he) hn
        rw [hc, h1] at h2
        injection h2 with h3
        exact absurd (by rw [h3]; exact heq.symm) hne
      · have hin : e ∈ aerase l pid := mem_aerase.mpr ⟨he, hc⟩
        calc maxHeights l = e.2.height := heq
          _ ≤ maxHeights (aerase l pid) := height_le_maxHeights hin

theorem RemovePeer_some_spec (pool : BlockPool) (pid : Nat) (rec : BPPeer)
    (err : Option BCError) (hI : PoolInv pool) (hl : alookup pool.peers pid = some rec) :
    PoolInv (RemovePeer pool pid err) ∧
    (RemovePeer pool pid err).MaxPeerHeight ≤ pool.MaxPeerHeight ∧
    (RemovePeer pool pid err).Height = pool.Height ∧
    (∀ k q, alookup (RemovePeer pool pid err).blocks k = some q →
      alookup pool.blocks k = some q) ∧
    (∀ k ∈ pool.plannedRequests, k ∈ (RemovePeer pool pid err).plannedRequests ∨
      (RemovePeer pool pid err).MaxPeerHeight < k) ∧
    (∀ q, q ≠ pid →
      alookup (RemovePeer pool pid err).peers q = alookup pool.peers q) ∧
    (∀ k, k < pool.nextRequestHeight ∨ pool.MaxPeerHeight < k →
      k < (RemovePeer pool pid err).nextRequestHeight ∨
        (RemovePeer pool pid err).MaxPeerHeight < k) ∧
    (∀ k, (k ∈ (RemovePeer pool pid err).plannedRequests ∨
        (alookup (RemovePeer pool pid err).blocks k).isSome) ↔
      ((k ∈ pool.plannedRequests ∨ (alookup pool.blocks k).isSome) ∧
        k ≤ (RemovePeer pool pid err).MaxPeerHeight)) ∧
    (∀ k ∈ keysOf rec, k ≤ (RemovePeer pool pid err).MaxPeerHeight →
      k ∈ (RemovePeer pool pid err).plannedRequests ∧
        alookup (RemovePeer pool pid err).blocks k = none) := by
  have hid : rec.id = pid := hI.lookup_id hl
  have hmem : (pid, rec) ∈ pool.peers := mem_of_alookup hl
  have hksP : ∀ k ∈ keysOf rec, alookup pool.blocks k = some pid :=
    (hI.peerGood (pid, rec) hmem).2
  have hksB : ∀ k ∈ keysOf rec,
      k < pool.nextRequestHeight ∧ k ≤ pool.MaxPeerHeight := by
    intro k hk
    have h1 := hI.blocks_lookup (hksP k hk)
    rcases h1.2 with ⟨r, hr, hkr, hkh⟩
    rw [hl] at hr
    cases hr
    exact ⟨h1.1, le_trans hkh (hI.lookup_height_le hl)⟩
  have hP1peers : (reschedFold pid (keysOf rec) pool).peers =
      aupdate pool.peers pid (removeAll (keysOf rec)) := reschedFold_peers _ _ _
  have hP1max : (reschedFold pid (keysOf rec) pool).MaxPeerHeight =
      pool.MaxPeerHeight := reschedFold_Max _ _ _
  have hPFpeers : (removePhase2 pool pid rec).peers =
      aerase (aupdate pool.peers pid (removeAll (keysOf rec))) pid := by
    unfold removePhase2
    rw [deletePeer_peers, hid, hP1peers]
  have hPFlookO : ∀ q, q ≠ pid →
      alookup (removePhase2 pool pid rec).peers q = alookup pool.peers q := by
    intro q hq
    rw [hPFpeers, alookup_aerase, if_neg hq, alookup_aupdate, if_neg hq]
  have hPFmem : ∀ e, e ∈ (removePhase2 pool pid rec).peers →
      e ∈ pool.peers ∧ e.1 ≠ pid := by
    intro e he
    rw [hPFpeers] at he
    rcases mem_aerase.mp he with ⟨h1, h2⟩
    exact ⟨mem_of_mem_aupdate h1 h2, h2⟩
  have hPFkeysN : ((removePhase2 pool pid rec).peers.map Prod.fst).Nodup := by
    rw [hPFpeers]
    refine List.Nodup.sublist (keys_aerase_sublist _ _) ?_
    rw [keys_aupdate]
    exact hI.nodupPeers
  have hPFle : maxHeights (removePhase2 pool pid rec).peers ≤ pool.MaxPeerHeight := by
    rw [hI.maxSync]
    apply maxHeights_le (maxHeights_nonneg _)
    intro e he
    exact height_le_maxHeights (hPFmem e he).1
  have hP2max : (removePhase2 pool pid rec).MaxPeerHeight =
      maxHeights (removePhase2 pool pid rec).peers := by
    have hrw : (removePhase2 pool pid rec).peers =
        aerase (reschedFold pid (keysOf rec) pool).peers rec.id := by
      unfold removePhase2
      rw [deletePeer_peers]
    rw [hrw]
    show (deletePeer (reschedFold pid (keysOf rec) pool) rec).MaxPeerHeight = _
    rw [deletePeer_Max]
    by_cases hdel : rec.height = (reschedFold pid (keysOf rec) pool).MaxPeerHeight
    · rw [if_pos hdel]
    · rw [if_neg hdel]
      rw [hP1max] at hdel ⊢
      rw [hid, hP1peers]
      have hup : (pid, removeAll (keysOf rec) rec) ∈
          aupdate pool.peers pid (removeAll (keysOf rec)) := by
        apply mem_of_alookup (v := removeAll (keysOf rec) rec)
        rw [alookup_aupdate, if_pos rfl, hl]
        rfl
      have hnodup : ((aupdate pool.peers pid (removeAll (keysOf rec))).map Prod.fst).Nodup := by
        rw [keys_aupdate]
        exact hI.nodupPeers
      have hmx : maxHeights (aupdate pool.peers pid (removeAll (keysOf rec))) =
          maxHeights pool.peers :=
        maxHeights_aupdate _ _ _ (fun r => removeAll_height _ r)
      rw [maxHeights_aerase_eq _ pid (removeAll (keysOf rec) rec) hnodup hup
        (by rw [removeAll_height, hmx, ← hI.maxSync]; exact hdel), hmx, ← hI.maxSync]
  have hP2maxle : (removePhase2 pool pid rec).MaxPeerHeight ≤ pool.MaxPeerHeight := by
    rw [hP2max]
    exact hPFle
  have hP2blocksL : ∀ k, alookup (removePhase2 pool pid rec).blocks k =
      if k ∈ keysOf rec then none else alookup pool.blocks k := by
    intro k
    show alookup (deletePeer (reschedFold pid (keysOf rec) pool) rec).blocks k = _
    rw [deletePeer_blocks]
    exact reschedFold_blocks _ _ _ _
  have hP2blocksM : ∀ e : Int × Nat, e ∈ (removePhase2 pool pid rec).blocks ↔
      e ∈ pool.blocks ∧ e.1 ∉ keysOf rec := by
    intro e
    show e ∈ (deletePeer (reschedFold pid (keysOf rec) pool) rec).blocks ↔ _
    rw [deletePeer_blocks]
    exact reschedFold_blocks_mem _ _ _ _
  have hP2blocksN : ((removePhase2 pool pid rec).blocks.map Prod.fst).Nodup := by
    show ((deletePeer (reschedFold pid (keysOf rec) pool) rec).blocks.map Prod.fst).Nodup
    rw [deletePeer_blocks]
    exact List.Nodup.sublist (reschedFold_blocks_keys _ _ _) hI.nodupBlocks
  have hP2planned : ∀ x : Int, x ∈ (removePhase2 pool pid rec).plannedRequests ↔
      x ∈ pool.plannedRequests ∨ x ∈ keysOf rec := by
    intro x
    show x ∈ (deletePeer (reschedFold pid (keysOf rec) pool) rec).plannedRequests ↔ _
    rw [deletePeer_planned]
    exact reschedFold_planned_mem _ _ _ _
  have hP2plannedN : (removePhase2 pool pid rec).plannedRequests.Nodup := by
    show (deletePeer (reschedFold pid (keysOf rec) pool) rec).plannedRequests.Nodup
    rw [deletePeer_planned]
    exact reschedFold_planned_nodup _ _ _ hI.nodupPlanned
  have hP2next : (removePhase2 pool pid rec).nextRequestHeight =
      pool.nextRequestHeight := by
    show (deletePeer (reschedFold pid (keysOf rec) pool) rec).nextRequestHeight = _
    rw [deletePeer_next]
    exact reschedFold_next _ _ _
  have hP2Height : (removePhase2 pool pid rec).Height = pool.Height := by
    show (deletePeer (reschedFold pid (keysOf rec) pool) rec).Height = _
    rw [deletePeer_Height]
    exact reschedFold_Height _ _ _
  have hlive : ∀ k q, alookup pool.blocks k = some q → k ∉ keysOf rec →
      ∃ r, alookup (removePhase2 pool pid rec).peers q = some r ∧ k ∈ keysOf r ∧
        k ≤ r.height ∧ r.height ≤ (removePhase2 pool pid rec).MaxPeerHeight := by
    intro k q hkq hks
    rcases (hI.blocks_lookup hkq).2 with ⟨r, hr, hkr, hkh⟩
    have hqpid : q ≠ pid := by
      intro hc
      rw [hc, hl] at hr
      cases hr
      exact hks hkr
    have hlq : alookup (removePhase2 pool pid rec).peers q = some r := by
      rw [hPFlookO q hqpid]
      exact hr
    refine ⟨r, hlq, hkr, hkh, ?_⟩
    rw [hP2max]
    exact height_le_maxHeights (mem_of_alookup hlq)
  have hBlocksSome : ∀ k q, alookup (removePhase2 pool pid rec).blocks k = some q →
      alookup pool.blocks k = some q ∧ k ∉ keysOf rec := by
    intro k q hk
    rw [hP2blocksL] at hk
    by_cases hks : k ∈ keysOf rec
    · rw [if_pos hks] at hk
      cases hk
    · rw [if_neg hks] at hk
      exact ⟨hk, hks⟩
  have hBL : ∀ e : Int × Nat, e ∈ (removePhase2 pool pid rec).blocks →
      e.1 < pool.nextRequestHeight ∧
      (∃ r, alookup (removePhase2 pool pid rec).peers e.2 = some r ∧
        e.1 ∈ keysOf r ∧ e.1 ≤ r.height) ∧
      e.1 ≤ (removePhase2 pool pid rec).MaxPeerHeight := by
    intro e he
    rcases (hP2blocksM e).mp he with ⟨hep, hek⟩
    have hsome : alookup pool.blocks e.1 = some e.2 :=
      alookup_of_mem_nodup (by simpa using hep) hI.nodupBlocks
    rcases hlive e.1 e.2 hsome hek with ⟨r, hr1, hr2, hr3, hr4⟩
    exact ⟨(hI.blocksBound e hep).1, ⟨r, hr1, hr2, hr3⟩, le_trans hr3 hr4⟩
  have hNext0 : ∀ k : Int, (k ∈ pool.plannedRequests ∨ k ∈ keysOf rec) →
      k < pool.nextRequestHeight := by
    rintro k (hk | hk)
    · exact (hI.plannedBound k hk).1
    · exact (hksB k hk).1
  have hMax0 : ∀ k : Int, (k ∈ pool.plannedRequests ∨ k ∈ keysOf rec) →
      k ≤ pool.MaxPeerHeight := by
    rintro k (hk | hk)
    · exact (hI.plannedBound k hk).2
    · exact (hksB k hk).2
  have hDisjP2 : ∀ k : Int, (k ∈ pool.plannedRequests ∨ k ∈ keysOf rec) →
      alookup (removePhase2 pool pid rec).blocks k = none := by
    intro k hk
    rw [hP2blocksL]
    by_cases hks : k ∈ keysOf rec
    · rw [if_pos hks]
    · rw [if_neg hks]
      rcases hk with hk | hk
      · exact hI.disj k hk
      · exact absurd hk hks
  have hUnionP2 : ∀ k : Int,
      (k ∈ (removePhase2 pool pid rec).plannedRequests ∨
        (alookup (removePhase2 pool pid rec).blocks k).isSome) ↔
      (k ∈ pool.plannedRequests ∨ (alookup pool.blocks k).isSome) := by
    intro k
    constructor
    · rintro (hk | hk)
      · rcases (hP2planned k).mp hk with hk1 | hk1
        · exact Or.inl hk1
        · exact Or.inr (by rw [hksP k hk1]; rfl)
      · rcases Option.isSome_iff_exists.mp hk with ⟨q, hq⟩
        exact Or.inr (by rw [(hBlocksSome k q hq).1]; rfl)
    · rintro (hk | hk)
      · exact Or.inl ((hP2planned k).mpr (Or.inl hk))
      · rcases Option.isSome_iff_exists.mp hk with ⟨q, hq⟩
        by_cases hks : k ∈ keysOf rec
        · exact Or.inl ((hP2planned k).mpr (Or.inr hks))
        · refine Or.inr ?_
          rw [hP2blocksL, if_neg hks, hq]
          rfl
  have hPG : ∀ e, e ∈ (removePhase2 pool pid rec).peers →
      e.2.id = e.1 ∧ ∀ h ∈ keysOf e.2,
        alookup (removePhase2 pool pid rec).blocks h = some e.1 := by
    intro e he
    rcases hPFmem e he with ⟨hepool, hepid⟩
    rcases hI.peerGood e hepool with ⟨h1, h2⟩
    refine ⟨h1, fun h hh => ?_⟩
    have h3 := h2 h hh
    have hks : h ∉ keysOf rec := by
      intro hc
      have h4 := hksP h hc
      injection h3.symm.trans h4 with h5
      exact hepid h5
    rw [hP2blocksL h, if_neg hks]
    exact h3
  rw [RemovePeer_eq pool pid err rec hl]
  by_cases hlow : (removePhase2 pool pid rec).MaxPeerHeight <
      (reschedFold pid (keysOf rec) pool).MaxPeerHeight
  · rw [if_pos hlow]
    by_cases hcl : (removePhase2 pool pid rec).MaxPeerHeight <
        (removePhase2 pool pid rec).nextRequestHeight
    · rw [if_pos hcl]
      refine ⟨⟨hPFkeysN, hP2blocksN, List.Nodup.filter _ hP2plannedN, ?_, ?_, ?_, hPG,
          hP2max⟩, hP2maxle, hP2Height, ?_, ?_, hPFlookO, ?_, ?_, ?_⟩
      · intro k hk
        rcases List.mem_filter.mp hk with ⟨hk1, _⟩
        exact hDisjP2 k ((hP2planned k).mp hk1)
      · intro k hk
        rcases List.mem_filter.mp hk with ⟨hk1, hk2⟩
        have hk3 := of_decide_eq_true hk2
        refine ⟨?_, hk3⟩
        show k < (removePhase2 pool pid rec).MaxPeerHeight + 1
        omega
      · intro e he
        rcases hBL e he with ⟨_, hrr, hle⟩
        refine ⟨?_, hrr⟩
        show e.1 < (removePhase2 pool pid rec).MaxPeerHeight + 1
        omega
      · intro k q hk
        exact (hBlocksSome k q hk).1
      · intro k hk
        by_cases hle : k ≤ (removePhase2 pool pid rec).MaxPeerHeight
        · refine Or.inl (List.mem_filter.mpr ⟨(hP2planned k).mpr (Or.inl hk), ?_⟩)
          exact decide_eq_true hle
        · refine Or.inr ?_
          show (removePhase2 pool pid rec).MaxPeerHeight < k
          omega
      · intro k _
        by_cases hle : k ≤ (removePhase2 pool pid rec).MaxPeerHeight
        · refine Or.inl ?_
          show k < (removePhase2 pool pid rec).MaxPeerHeight + 1
          omega
        · refine Or.inr ?_
          show (removePhase2 pool pid rec).MaxPeerHeight < k
          omega
      · intro k
        constructor
        · rintro (hk | hk)
          · rcases List.mem_filter.mp hk with ⟨hk1, hk2⟩
            exact ⟨(hUnionP2 k).mp (Or.inl hk1), of_decide_eq_true hk2⟩
          · rcases Option.isSome_iff_exists.mp hk with ⟨q, hq⟩
            have hk2 := (hBL (k, q) (mem_of_alookup hq)).2.2
            exact ⟨(hUnionP2 k).mp (Or.inr (by rw [hq]; rfl)), hk2⟩
        · rintro ⟨hk, hle⟩
          rcases (hUnionP2 k).mpr hk with hk1 | hk1
          · exact Or.inl (List.mem_filter.mpr ⟨hk1, decide_eq_true hle⟩)
          · exact Or.inr hk1
      · intro k hk hle
        refine ⟨List.mem_filter.mpr ⟨(hP2planned k).mpr (Or.inr hk), decide_eq_true hle⟩, ?_⟩
        show alookup (removePhase2 pool pid rec).blocks k = none
        rw [hP2blocksL, if_pos hk]
    · rw [if_neg hcl]
      refine ⟨⟨hPFkeysN, hP2blocksN, List.Nodup.filter _ hP2plannedN, ?_, ?_, ?_, hPG,
          hP2max⟩, hP2maxle, hP2Height, ?_, ?_, hPFlookO, ?_, ?_, ?_⟩
      · intro k hk
        rcases List.mem_filter.mp hk with ⟨hk1, _⟩
        exact hDisjP2 k ((hP2planned k).mp hk1)
      · intro k hk
        rcases List.mem_filter.mp hk with ⟨hk1, hk2⟩
        refine ⟨?_, of_decide_eq_true hk2⟩
        show k < (removePhase2 pool pid rec).nextRequestHeight
        rw [hP2next]
        exact hNext0 k ((hP2planned k).mp hk1)
      · intro e he
        rcases hBL e he with ⟨hn, hrr, _⟩
        refine ⟨?_, hrr⟩
        show e.1 < (removePhase2 pool pid rec).nextRequestHeight
        rw [hP2next]
        exact hn
      · intro k q hk
        exact (hBlocksSome k q hk).1
      · intro k hk
        by_cases hle : k ≤ (removePhase2 pool pid rec).MaxPeerHeight
        · refine Or.inl (List.mem_filter.mpr ⟨(hP2planned k).mpr (Or.inl hk), ?_⟩)
          exact decide_eq_true hle
        · refine Or.inr ?_
          show (removePhase2 pool pid rec).MaxPeerHeight < k
          omega
      · intro k hk
        show k < (removePhase2 pool pid rec).nextRequestHeight ∨
          (removePhase2 pool pid rec).MaxPeerHeight < k
        rcases hk with hk | hk
        · rw [hP2next]
          exact Or.inl hk
        · refine Or.inr ?_
          calc (removePhase2 pool pid rec).MaxPeerHeight ≤ pool.MaxPeerHeight := hP2maxle
            _ < k := hk
      · intro k
        constructor
        · rintro (hk | hk)
          · rcases List.mem_filter.mp hk with ⟨hk1, hk2⟩
            exact ⟨(hUnionP2 k).mp (Or.inl hk1), of_decide_eq_true hk2⟩
          · rcases Option.isSome_iff_exists.mp hk with ⟨q, hq⟩
            have hk2 := (hBL (k, q) (mem_of_alookup hq)).2.2
            exact ⟨(hUnionP2 k).mp (Or.inr (by rw [hq]; rfl)), hk2⟩
        · rintro ⟨hk, hle⟩
          rcases (hUnionP2 k).mpr hk with hk1 | hk1
          · exact Or.inl (List.mem_filter.mpr ⟨hk1, decide_eq_true hle⟩)
          · exact Or.inr hk1
      · intro k hk hle
        refine ⟨List.mem_filter.mpr ⟨(hP2planned k).mpr (Or.inr hk), decide_eq_true hle⟩, ?_⟩
        show alookup (removePhase2 pool pid rec).blocks k = none
        rw [hP2blocksL, if_pos hk]
  · rw [if_neg hlow]
    have hMB : (removePhase2 pool pid rec).MaxPeerHeight = pool.MaxPeerHeight := by
      rw [hP1max] at hlow
      omega
    refine ⟨⟨hPFkeysN, hP2blocksN, hP2plannedN, ?_, ?_, ?_, hPG, hP2max⟩,
        hP2maxle, hP2Height, ?_, ?_, hPFlookO, ?_, ?_, ?_⟩
    · intro k hk
      exact hDisjP2 k ((hP2planned k).mp hk)
    · intro k hk
      have hk1 := (hP2planned k).mp hk
      refine ⟨?_, ?_⟩
      · rw [hP2next]
        exact hNext0 k hk1
      · rw [hMB]
        exact hMax0 k hk1
    · intro e he
      rcases hBL e he with ⟨hn, hrr, _⟩
      refine ⟨?_, hrr⟩
      rw [hP2next]
      exact hn
    · intro k q hk
      exact (hBlocksSome k q hk).1
    · intro k hk
      exact Or.inl ((hP2planned k).mpr (Or.inl hk))
    · intro k hk
      rw [hP2next, hMB]
      exact hk
    · intro k
      constructor
      · rintro (hk | hk)
        · have hk1 := (hP2planned k).mp hk
          refine ⟨(hUnionP2 k).mp (Or.inl hk), ?_⟩
          rw [hMB]
          exact hMax0 k hk1
        · rcases Option.isSome_iff_exists.mp hk with ⟨q, hq⟩
          have hk2 := (hBL (k, q) (mem_of_alookup hq)).2.2
          exact ⟨(hUnionP2 k).mp (Or.inr (by rw [hq]; rfl)), hk2⟩
      · rintro ⟨hk, _⟩
        exact (hUnionP2 k).mpr hk
    · intro k hk _
      refine ⟨(hP2planned k).mpr (Or.inr hk), ?_⟩
      rw [hP2blocksL, if_pos hk]

theorem RemovePeer_spec (pool : BlockPool) (pid : Nat) (err : Option BCError)
    (hI : PoolInv pool) :
    PoolInv (RemovePeer pool pid err) ∧
    (RemovePeer pool pid err).MaxPeerHeight ≤ pool.MaxPeerHeight ∧
    (RemovePeer pool pid err).Height = pool.Height ∧
    (∀ k q, alookup (RemovePeer pool pid err).blocks k = some q →
      alookup pool.blocks k = some q) ∧
    (∀ k ∈ pool.plannedRequests, k ∈ (RemovePeer pool pid err).plannedRequests ∨
      (RemovePeer pool pid err).MaxPeerHeight < k) ∧
    (∀ q, q ≠ pid →
      alookup (RemovePeer pool pid err).peers q = alookup pool.peers q) ∧
    (∀ k, k < pool.nextRequestHeight ∨ pool.MaxPeerHeight < k →
      k < (RemovePeer pool pid err).nextRequestHeight ∨
        (RemovePeer pool pid err).MaxPeerHeight < k) := by
  cases hl : alookup pool.peers pid with
  | none =>
    rw [RemovePeer_eq_of_none pool pid err hl]
    exact ⟨hI, le_refl _, rfl, fun k q h => h, fun k hk => Or.inl hk, fun q _ => rfl,
      fun k hk => hk⟩
  | some rec =>
    obtain ⟨h1, h2, h3, h4, h5, h6, h7, _, _⟩ :=
      RemovePeer_some_spec pool pid rec err hI hl
    exact ⟨h1, h2, h3, h4, h5, h6, h7⟩

theorem foldRemove_inv {β : Type} (step : BlockPool → β → BlockPool)
    (hstep : ∀ p e, PoolInv p → PoolInv (step p e)) :
    ∀ (l : List β) (pool : BlockPool), PoolInv pool → PoolInv (l.foldl step pool) := by
  intro l
  induction l with
  | nil => exact fun pool h => h
  | cons e t ih => exact fun pool h => ih _ (hstep pool e h)

theorem removeShortPeers_inv (pool : BlockPool) (hI : PoolInv pool) :
    PoolInv (removeShortPeers pool) := by
  unfold removeShortPeers
  refine foldRemove_inv _ ?_ pool.peers pool hI
  intro p e hp
  by_cases h : e.2.height < p.Height
  · rw [if_pos h]
    exact (RemovePeer_spec p e.2.id none hp).1
  · rw [if_neg h]
    exact hp

theorem removeBadPeers_inv (pool : BlockPool) (hI : PoolInv pool) :
    PoolInv (removeBadPeers pool) := by
  unfold removeBadPeers
  refine foldRemove_inv _ ?_ _ _ (removeShortPeers_inv pool hI)
  intro p e hp
  cases hc : e.2.CheckRate with
  | none => exact hp
  | some err => exact (RemovePeer_spec p e.2.id (some err) hp).1

theorem planLoop_inv : ∀ (fuel : Nat) (needed : Int) (pool : BlockPool),
    PoolInv pool → PoolInv (planLoop fuel needed pool) := by
  intro fuel
  induction fuel with
  | zero => exact fun needed pool h => h
  | succ n ih =>
    intro needed pool h
    unfold planLoop
    split
    · rename_i hc
      apply ih
      refine ⟨h.nodupPeers, h.nodupBlocks, nodup_sinsert _ h.nodupPlanned,
        ?_, ?_, ?_, fun e he => h.peerGood e he, h.maxSync⟩
      · intro k hk
        rcases mem_sinsert.mp hk with hk1 | rfl
        · exact h.disj k hk1
        · exact alookup_none_of_bound (fun e he => (h.blocksBound e he).1)
      · intro k hk
        rcases mem_sinsert.mp hk with hk1 | rfl
        · obtain ⟨hb1, hb2⟩ := h.plannedBound k hk1
          refine ⟨?_, hb2⟩
          show k < pool.nextRequestHeight + 1
          omega
        · refine ⟨?_, hc.2⟩
          show pool.nextRequestHeight < pool.nextRequestHeight + 1
          omega
      · intro e he
        obtain ⟨hb1, hb2⟩ := h.blocksBound e he
        refine ⟨?_, hb2⟩
        show e.1 < pool.nextRequestHeight + 1
        omega
    · exact h

theorem makeRequestBatch_inv (pool : BlockPool) (n : Int) (hI : PoolInv pool) :
    PoolInv (makeRequestBatch pool n).1 := by
  unfold makeRequestBatch
  exact planLoop_inv _ _ _ (removeBadPeers_inv pool hI)

theorem keysOf_RequestSent {r : BPPeer} {h x : Int} :
    x ∈ keysOf (r.RequestSent h) ↔ x = h ∨ (x ∈ keysOf r ∧ x ≠ h) := by
  simp only [keysOf, BPPeer.RequestSent, List.mem_append, mem_sinsert, keys_aerase_mem]
  by_cases hx : x = h
  · subst hx
    tauto
  · tauto

theorem sendSuccess_inv (pool : BlockPool) (pid : Nat) (rec : BPPeer) (height : Int)
    (hI : PoolInv pool) (hlk : alookup pool.peers pid = some rec)
    (hcap : height ≤ rec.height) (hb : alookup pool.blocks height = none)
    (hQn : height < pool.nextRequestHeight) :
    PoolInv { pool with
      plannedRequests := serase pool.plannedRequests height,
      blocks := ainsert pool.blocks height pid,
      peers := aupdate pool.peers pid (fun r => r.RequestSent height) } := by
  have hmemrec : (pid, rec) ∈ pool.peers := mem_of_alookup hlk
  have hMaxc : height ≤ pool.MaxPeerHeight :=
    le_trans hcap (hI.lookup_height_le hlk)
  refine ⟨?_, ?_, nodup_serase _ hI.nodupPlanned, ?_, ?_, ?_, ?_, ?_⟩
  · show ((aupdate pool.peers pid (fun r => r.RequestSent height)).map Prod.fst).Nodup
    rw [keys_aupdate]
    exact hI.nodupPeers
  · exact keys_ainsert_nodup _ _ hI.nodupBlocks
  · intro k hk
    rcases mem_serase.mp hk with ⟨hk1, hk2⟩
    show alookup (ainsert pool.blocks height pid) k = none
    rw [alookup_ainsert_ne _ _ _ _ hk2]
    exact hI.disj k hk1
  · intro k hk
    exact hI.plannedBound k (mem_serase.mp hk).1
  · intro e1 he1
    rcases mem_ainsert_elim he1 with rfl | he2
    · refine ⟨hQn, ?_⟩
      refine ⟨rec.RequestSent height, ?_, ?_, hcap⟩
      · show alookup (aupdate pool.peers pid (fun r => r.RequestSent height)) pid = _
        rw [alookup_aupdate, if_pos rfl, hlk]
        rfl
      · exact keysOf_RequestSent.mpr (Or.inl rfl)
    · have hne : e1.1 ≠ height := by
        intro hc
        have : e1.1 ∈ pool.blocks.map Prod.fst := List.mem_map.mpr ⟨e1, he2, rfl⟩
        rw [hc] at this
        exact alookup_eq_none_iff.mp hb this
      obtain ⟨hb1, r, hr1, hr2, hr3⟩ := hI.blocksBound e1 he2
      refine ⟨hb1, ?_⟩
      by_cases hq : e1.2 = pid
      · subst hq
        rw [hr1] at hlk
        injection hlk with hlk2
        refine ⟨rec.RequestSent height, ?_, ?_, ?_⟩
        · show alookup (aupdate pool.peers e1.2 (fun r => r.RequestSent height)) e1.2 = _
          rw [alookup_aupdate, if_pos rfl, hr1, hlk2]
          rfl
        · rw [← hlk2]
          exact keysOf_RequestSent.mpr (Or.inr ⟨hr2, hne⟩)
        · rw [← hlk2]
          exact hr3
      · refine ⟨r, ?_, hr2, hr3⟩
        show alookup (aupdate pool.peers pid (fun r => r.RequestSent height)) e1.2 = _
        rw [alookup_aupdate, if_neg hq]
        exact hr1
  · intro e1 he1
    have he1a : e1 ∈ aupdate pool.peers pid (fun r => r.RequestSent height) := he1
    rcases mem_aupdate_elim he1a with he2 | ⟨v, hv, rfl⟩
    · obtain ⟨hg1, hg2⟩ := hI.peerGood e1 he2
      refine ⟨hg1, ?_⟩
      intro h hh
      have h3 := hg2 h hh
      have hne : h ≠ height := by
        intro hc
        rw [hc, hb] at h3
        cases h3
      show alookup (ainsert pool.blocks height pid) h = some e1.1
      rw [alookup_ainsert_ne _ _ _ _ hne]
      exact h3
    · have hv2 : v = rec := by
        have h4 := alookup_of_mem_nodup hv hI.nodupPeers
        rw [hlk] at h4
        injection h4 with h5
        exact h5.symm
      subst hv2
      constructor
      · show (v.RequestSent height).id = pid
        show v.id = pid
        exact hI.lookup_id hlk
      · intro hx hh
        rcases keysOf_RequestSent.mp hh with rfl | ⟨hh1, hh2⟩
        · show alookup (ainsert pool.blocks hx pid) hx = some pid
          exact alookup_ainsert_self pool.blocks hx pid
        · have h3 := (hI.peerGood (pid, v) (mem_of_alookup hlk)).2 hx hh1
          show alookup (ainsert pool.blocks height pid) hx = some pid
          rw [alookup_ainsert_ne _ _ _ _ hh2]
          exact h3
  · show pool.MaxPeerHeight = maxHeights (aupdate pool.peers pid (fun r => r.RequestSent height))
    rw [maxHeights_aupdate pool.peers pid (fun r => r.RequestSent height) (fun r => rfl)]
    exact hI.maxSync

theorem sendSuccess_main (env : SendEnv) (height : Int) (pool : BlockPool)
    (e : Nat × BPPeer) (hI : PoolInv pool) (hidE : e.2.id = e.1)
    (hlkE : alookup pool.peers e.1 = some e.2) (hsh : ¬ e.2.height < height)
    (hb : alookup pool.blocks height = none)
    (hQ : height < pool.nextRequestHeight ∨ pool.MaxPeerHeight < height) :
    PoolInv { pool with
      plannedRequests := serase pool.plannedRequests height,
      blocks := ainsert pool.blocks height e.2.id,
      peers := aupdate pool.peers e.2.id (fun r => r.RequestSent height) } := by
  have hlk2 : alookup pool.peers e.2.id = some e.2 := by
    rw [hidE]
    exact hlkE
  have hcap : height ≤ e.2.height := by omega
  have hQn : height < pool.nextRequestHeight := by
    rcases hQ with hQ | hQ
    · exact hQ
    · have := hI.lookup_height_le hlk2
      omega
  exact sendSuccess_inv pool e.2.id e.2 height hI hlk2 hcap hb hQn

theorem sendLoop_cons (env : SendEnv) (height : Int) (e : Nat × BPPeer)
    (rest : List (Nat × BPPeer)) (pool : BlockPool) :
    sendLoop env height (e :: rest) pool =
      if maxRequestsPerPeer ≤ e.2.pending.length then sendLoop env height rest pool
      else if e.2.height < height then sendLoop env height rest pool
      else
        match env e.2.id height with
        | some BCError.nilPeerForBlockRequest =>
          sendLoop env height rest
            (RemovePeer pool e.2.id (some BCError.nilPeerForBlockRequest))
        | some BCError.sendQueueFull => sendLoop env height rest pool
        | _ =>
          ({ pool with
             blocks := ainsert pool.blocks height e.2.id,
             peers := aupdate pool.peers e.2.id (fun r => r.RequestSent height) },
           true) := rfl

theorem sendLoop_success_spec (env : SendEnv) (height : Int) (pool : BlockPool)
    (e : Nat × BPPeer) (hI : PoolInv pool) (hidE : e.2.id = e.1)
    (hlkE : alookup pool.peers e.1 = some e.2) (hsh : ¬ e.2.height < height)
    (hb : alookup pool.blocks height = none)
    (hQ : height < pool.nextRequestHeight ∨ pool.MaxPeerHeight < height) :
    ∀ res : BlockPool × Bool,
    res = ({ pool with
      blocks := ainsert pool.blocks height e.2.id,
      peers := aupdate pool.peers e.2.id (fun r => r.RequestSent height) }, true) →
    (res.2 = false → PoolInv res.1) ∧
    (res.2 = true → PoolInv { res.1 with
      plannedRequests := serase res.1.plannedRequests height }) ∧
    res.1.MaxPeerHeight ≤ pool.MaxPeerHeight ∧
    res.1.Height = pool.Height ∧
    (∀ k q, alookup res.1.blocks k = some q →
      alookup pool.blocks k = some q ∨ (k = height ∧ res.2 = true)) ∧
    (∀ k ∈ pool.plannedRequests, k ∈ res.1.plannedRequests ∨
      res.1.MaxPeerHeight < k) ∧
    (∀ k, k < pool.nextRequestHeight ∨ pool.MaxPeerHeight < k →
      k < res.1.nextRequestHeight ∨ res.1.MaxPeerHeight < k) := by
  rintro res rfl
  refine ⟨fun hcon => Bool.noConfusion hcon, fun _ => ?_, le_refl _, rfl, ?_,
    fun k hk => Or.inl hk, fun k hk => hk⟩
  · exact sendSuccess_main env height pool e hI hidE hlkE hsh hb hQ
  · intro k q hk
    by_cases hkh : k = height
    · exact Or.inr ⟨hkh, rfl⟩
    · refine Or.inl ?_
      have hk2 : alookup (ainsert pool.blocks height e.2.id) k = some q := hk
      rw [alookup_ainsert_ne _ _ _ _ hkh] at hk2
      exact hk2

theorem sendLoop_spec (env : SendEnv) (height : Int) :
    ∀ (ps : List (Nat × BPPeer)) (pool : BlockPool),
    PoolInv pool →
    (∀ e ∈ ps, e.2.id = e.1 ∧ alookup pool.peers e.1 = some e.2) →
    (ps.map Prod.fst).Nodup →
    alookup pool.blocks height = none →
    (height < pool.nextRequestHeight ∨ pool.MaxPeerHeight < height) →
    ((sendLoop env height ps pool).2 = false →
      PoolInv (sendLoop env height ps pool).1) ∧
    ((sendLoop env height ps pool).2 = true →
      PoolInv { (sendLoop env height ps pool).1 with
        plannedRequests := serase (sendLoop env height ps pool).1.plannedRequests height }) ∧
    (sendLoop env height ps pool).1.MaxPeerHeight ≤ pool.MaxPeerHeight ∧
    (sendLoop env height ps pool).1.Height = pool.Height ∧
    (∀ k q, alookup (sendLoop env height ps pool).1.blocks k = some q →
      alookup pool.blocks k = some q ∨
        (k = height ∧ (sendLoop env height ps pool).2 = true)) ∧
    (∀ k ∈ pool.plannedRequests, k ∈ (sendLoop env height ps pool).1.plannedRequests ∨
      (sendLoop env height ps pool).1.MaxPeerHeight < k) ∧
    (∀ k, k < pool.nextRequestHeight ∨ pool.MaxPeerHeight < k →
      k < (sendLoop env height ps pool).1.nextRequestHeight ∨
        (sendLoop env height ps pool).1.MaxPeerHeight < k) := by
  intro ps
  induction ps with
  | nil =>
    intro pool hI hps hnd hb hQ
    exact ⟨fun _ => hI, fun hcon => Bool.noConfusion hcon, le_refl _, rfl,
      fun k q hk => Or.inl hk, fun k hk => Or.inl hk, fun k hk => hk⟩
  | cons e rest ih =>
    intro pool hI hps hnd hb hQ
    obtain ⟨hidE, hlkE⟩ := hps e (List.mem_cons_self _ _)
    have hpsRest : ∀ e1 ∈ rest, e1.2.id = e1.1 ∧ alookup pool.peers e1.1 = some e1.2 :=
      fun e1 he1 => hps e1 (List.mem_cons_of_mem _ he1)
    have hnd2 : e.1 ∉ rest.map Prod.fst ∧ (rest.map Prod.fst).Nodup := by
      rw [List.map_cons, List.nodup_cons] at hnd
      exact hnd
    have hheadNe : ∀ e1 ∈ rest, e1.1 ≠ e.1 := by
      intro e1 he1 hc
      exact hnd2.1 (hc ▸ List.mem_map.mpr ⟨e1, he1, rfl⟩)
    by_cases hcap : maxRequestsPerPeer ≤ e.2.pending.length
    · have hstep : sendLoop env height (e :: rest) pool =
          sendLoop env height rest pool := by
        rw [sendLoop_cons, if_pos hcap]
      rw [hstep]
      exact ih pool hI hpsRest hnd2.2 hb hQ
    · by_cases hsh : e.2.height < height
      · have hstep : sendLoop env height (e :: rest) pool =
            sendLoop env height rest pool := by
          rw [sendLoop_cons, if_neg hcap, if_pos hsh]
        rw [hstep]
        exact ih pool hI hpsRest hnd2.2 hb hQ
      · cases henv : env e.2.id height with
        | none =>
          exact sendLoop_success_spec env height pool e hI hidE hlkE hsh hb hQ _
            (by rw [sendLoop_cons, if_neg hcap, if_neg hsh, henv])
        | some err =>
          cases err with
          | nilPeerForBlockRequest =>
            have hstep : sendLoop env height (e :: rest) pool =
                sendLoop env height rest
                  (RemovePeer pool e.2.id (some BCError.nilPeerForBlockRequest)) := by
              rw [sendLoop_cons, if_neg hcap, if_neg hsh, henv]
            rw [hstep]
            obtain ⟨s1, s2, s3, s4, s5, s6, s7⟩ :=
              RemovePeer_spec pool e.2.id (some BCError.nilPeerForBlockRequest) hI
            have hps2 : ∀ e1 ∈ rest, e1.2.id = e1.1 ∧
                alookup (RemovePeer pool e.2.id
                  (some BCError.nilPeerForBlockRequest)).peers e1.1 = some e1.2 := by
              intro e1 he1
              obtain ⟨ha, hb1⟩ := hpsRest e1 he1
              refine ⟨ha, ?_⟩
              rw [s6 e1.1 (by rw [hidE]; exact hheadNe e1 he1)]
              exact hb1
            have hb2 : alookup (RemovePeer pool e.2.id
                (some BCError.nilPeerForBlockRequest)).blocks height = none := by
              cases hx : alookup (RemovePeer pool e.2.id
                  (some BCError.nilPeerForBlockRequest)).blocks height with
              | none => rfl
              | some q =>
                have hco := s4 height q hx
                rw [hb] at hco
                cases hco
            obtain ⟨i1, i2, i3, i4, i5, i6, i7⟩ :=
              ih (RemovePeer pool e.2.id (some BCError.nilPeerForBlockRequest)) s1 hps2
                hnd2.2 hb2 (s7 height hQ)
            refine ⟨i1, i2, le_trans i3 s2, i4.trans s3, ?_, ?_, ?_⟩
            · intro k q hk
              rcases i5 k q hk with hk1 | hk1
              · exact Or.inl (s4 k q hk1)
              · exact Or.inr hk1
            · intro k hk
              rcases s5 k hk with hk1 | hk1
              · exact i6 k hk1
              · exact Or.inr (lt_of_le_of_lt i3 hk1)
            · intro k hk
              exact i7 k (s7 k hk)
          | sendQueueFull =>
            have hstep : sendLoop env height (e :: rest) pool =
                sendLoop env height rest pool := by
              rw [sendLoop_cons, if_neg hcap, if_neg hsh, henv]
            rw [hstep]
            exact ih pool hI hpsRest hnd2.2 hb hQ
          | peerTooShort =>
            exact sendLoop_success_spec env height pool e hI hidE hlkE hsh hb hQ _
              (by rw [sendLoop_cons, if_neg hcap, if_neg hsh, henv])
          | peerLowersItsHeight =>
            exact sendLoop_success_spec env height pool e hI hidE hlkE hsh hb hQ _
              (by rw [sendLoop_cons, if_neg hcap, if_neg hsh, henv])
          | badDataFromPeer =>
            exact sendLoop_success_spec env height pool e hI hidE hlkE hsh hb hQ _
              (by rw [sendLoop_cons, if_neg hcap, if_neg hsh, henv])
          | missingBlock =>
            exact sendLoop_success_spec env height pool e hI hidE hlkE hsh hb hQ _
              (by rw [sendLoop_cons, if_neg hcap, if_neg hsh, henv])
          | slowPeer =>
            exact sendLoop_success_spec env height pool e hI hidE hlkE hsh hb hQ _
              (by rw [sendLoop_cons, if_neg hcap, if_neg hsh, henv])
          | noBlockResponse =>
            exact sendLoop_success_spec env height pool e hI hidE hlkE hsh hb hQ _
              (by rw [sendLoop_cons, if_neg hcap, if_neg hsh, henv])

theorem sendLoop_queueFull (env : SendEnv) (height : Int)
    (henv : ∀ q k, env q k = some BCError.sendQueueFull) :
    ∀ (ps : List (Nat × BPPeer)) (pool : BlockPool),
      sendLoop env height ps pool = (pool, false) := by
  intro ps
  induction ps with
  | nil => intro pool; rfl
  | cons e rest ih =>
    intro pool
    rw [sendLoop_cons]
    by_cases h1 : maxRequestsPerPeer ≤ e.2.pending.length
    · rw [if_pos h1]
      exact ih pool
    · rw [if_neg h1]
      by_cases h2 : e.2.height < height
      · rw [if_pos h2]
        exact ih pool
      · rw [if_neg h2, henv e.2.id height]
        exact ih pool

theorem sendRequest_spec (env : SendEnv) (pool : BlockPool) (height : Int)
    (hI : PoolInv pool) (hb : alookup pool.blocks height = none)
    (hQ : height < pool.nextRequestHeight ∨ pool.MaxPeerHeight < height) :
    ((sendRequest env pool height).2 = false →
      PoolInv (sendRequest env pool height).1) ∧
    ((sendRequest env pool height).2 = true →
      PoolInv { (sendRequest env pool height).1 with
        plannedRequests := serase (sendRequest env pool height).1.plannedRequests height }) ∧
    (sendRequest env pool height).1.MaxPeerHeight ≤ pool.MaxPeerHeight ∧
    (sendRequest env pool height).1.Height = pool.Height ∧
    (∀ k q, alookup (sendRequest env pool height).1.blocks k = some q →
      alookup pool.blocks k = some q ∨
        (k = height ∧ (sendRequest env pool height).2 = true)) ∧
    (∀ k ∈ pool.plannedRequests, k ∈ (sendRequest env pool height).1.plannedRequests ∨
      (sendRequest env pool height).1.MaxPeerHeight < k) ∧
    (∀ k, k < pool.nextRequestHeight ∨ pool.MaxPeerHeight < k →
      k < (sendRequest env pool height).1.nextRequestHeight ∨
        (sendRequest env pool height).1.MaxPeerHeight < k) := by
  exact sendLoop_spec env height pool.peers pool hI
    (fun e he => ⟨(hI.peerGood e he).1,
      alookup_of_mem_nodup (by simpa using he) hI.nodupPeers⟩)
    hI.nodupPeers hb hQ

theorem dispatchLoop_inv (env : SendEnv) :
    ∀ (batch : List Int) (pool : BlockPool), PoolInv pool → batch.Nodup →
    (∀ k ∈ batch, alookup pool.blocks k = none ∧
      (k < pool.nextRequestHeight ∨ pool.MaxPeerHeight < k)) →
    PoolInv (dispatchLoop env batch pool) := by
  intro batch
  induction batch with
  | nil =>
    intro pool hI _ _
    exact hI
  | cons h t ih =>
    intro pool hI hnd hbatch
    obtain ⟨hb, hQ⟩ := hbatch h (List.mem_cons_self _ _)
    obtain ⟨c1, c2, c3, c4, c5, c6, c7⟩ := sendRequest_spec env pool h hI hb hQ
    rw [List.nodup_cons] at hnd
    show PoolInv (if (sendRequest env pool h).2 = true then
      dispatchLoop env t { (sendRequest env pool h).1 with
        plannedRequests := serase (sendRequest env pool h).1.plannedRequests h }
      else (sendRequest env pool h).1)
    by_cases hok : (sendRequest env pool h).2 = true
    · rw [if_pos hok]
      apply ih _ (c2 hok) hnd.2
      intro k hk
      have hkh : k ≠ h := fun hc => hnd.1 (hc ▸ hk)
      obtain ⟨hbk, hQk⟩ := hbatch k (List.mem_cons_of_mem _ hk)
      constructor
      · show alookup (sendRequest env pool h).1.blocks k = none
        cases hx : alookup (sendRequest env pool h).1.blocks k with
        | none => rfl
        | some q =>
          rcases c5 k q hx with hc | hc
          · rw [hbk] at hc
            cases hc
          · exact absurd hc.1 hkh
      · exact c7 k hQk
    · rw [if_neg hok]
      refine c1 ?_
      cases hx : (sendRequest env pool h).2 with
      | false => rfl
      | true => exact absurd hx hok

theorem MakeNextRequests_inv (env : SendEnv) (pool : BlockPool) (n : Int)
    (hI : PoolInv pool) : PoolInv (MakeNextRequests env pool n) := by
  unfold MakeNextRequests
  have hI2 := makeRequestBatch_inv pool n hI
  apply dispatchLoop_inv env _ _ hI2
  · show ((makeRequestBatch pool n).1.plannedRequests.mergeSort (fun a b => a ≤ b)).Nodup
    exact (List.mergeSort_perm _ _).symm.nodup hI2.nodupPlanned
  · intro k hk
    have hk2 : k ∈ (makeRequestBatch pool n).1.plannedRequests := by
      have hk3 : k ∈ (makeRequestBatch pool n).1.plannedRequests.mergeSort
          (fun a b => a ≤ b) := hk
      exact List.mem_mergeSort.mp hk3
    exact ⟨hI2.disj k hk2, Or.inl (hI2.plannedBound k hk2).1⟩

theorem ainsert_cons {α β : Type} [DecidableEq α] (a : α × β) (rest : List (α × β))
    (k : α) (v : β) :
    ainsert (a :: rest) k v =
      if a.1 = k then (k, v) :: rest else a :: ainsert rest k v := rfl

theorem mem_ainsert_of_none {α β : Type} [DecidableEq α] {l : List (α × β)} {k : α}
    {v : β} (hk : alookup l k = none) {e : α × β} (he : e ∈ l) : e ∈ ainsert l k v := by
  induction l with
  | nil => cases he
  | cons a rest ih =>
    rw [alookup_cons] at hk
    by_cases ha : a.1 = k
    · rw [if_pos ha] at hk
      cases hk
    · rw [if_neg ha] at hk
      rw [ainsert_cons, if_neg ha]
      rcases List.mem_cons.mp he with rfl | h1
      · exact List.mem_cons_self _ _
      · exact List.mem_cons_of_mem _ (ih hk h1)

theorem aupdate_eq_of_not_mem {α β : Type} [DecidableEq α] {l : List (α × β)} {k : α}
    (f : β → β) (hk : k ∉ l.map Prod.fst) : aupdate l k f = l := by
  induction l with
  | nil => rfl
  | cons a rest ih =>
    rw [List.map_cons] at hk
    have ha : a.1 ≠ k := fun hc => hk (List.mem_cons.mpr (Or.inl hc.symm))
    have ht : k ∉ rest.map Prod.fst := fun hc => hk (List.mem_cons.mpr (Or.inr hc))
    rw [aupdate_cons, if_neg ha, ih ht]

theorem heights_aupdate_keep :
    ∀ (l : List (Nat × BPPeer)) (k : Nat) (f : BPPeer → BPPeer) (rec : BPPeer),
    (l.map Prod.fst).Nodup → alookup l k = some rec → (f rec).height = rec.height →
    (aupdate l k f).map (fun e => e.2.height) = l.map (fun e => e.2.height) := by
  intro l
  induction l with
  | nil =>
    intro k f rec _ hlk _
    simp [alookup] at hlk
  | cons e rest ih =>
    intro k f rec hn hlk hh
    rw [List.map_cons, List.nodup_cons] at hn
    by_cases he : e.1 = k
    · have hrec : rec = e.2 := by
        rw [alookup_cons, if_pos he] at hlk
        injection hlk with h1
        exact h1.symm
      rw [aupdate_cons, if_pos he, aupdate_eq_of_not_mem f (he ▸ hn.1)]
      rw [List.map_cons, List.map_cons]
      congr 1
      show (f e.2).height = e.2.height
      rw [← hrec]
      exact hh
    · rw [alookup_cons, if_neg he] at hlk
      rw [aupdate_cons, if_neg he, List.map_cons, List.map_cons,
        ih k f rec hn.2 hlk hh]

theorem maxHeights_aupdate_keep (l : List (Nat × BPPeer)) (k : Nat)
    (f : BPPeer → BPPeer) (rec : BPPeer) (hn : (l.map Prod.fst).Nodup)
    (hlk : alookup l k = some rec) (hh : (f rec).height = rec.height) :
    maxHeights (aupdate l k f) = maxHeights l :=
  maxHeights_congr (heights_aupdate_keep l k f rec hn hlk hh)

theorem maxHeights_mono {l l2 : List (Nat × BPPeer)} (h : ∀ e ∈ l, e ∈ l2) :
    maxHeights l ≤ maxHeights l2 := by
  rcases maxHeights_cases l with h0 | ⟨e, he, heq⟩
  · rw [h0]
    exact maxHeights_nonneg _
  · rw [heq]
    exact height_le_maxHeights (h e he)

theorem maxHeights_le_aupdate_raise (l : List (Nat × BPPeer)) (k : Nat)
    (f : BPPeer → BPPeer) (rec : BPPeer) (hn : (l.map Prod.fst).Nodup)
    (hlk : alookup l k = some rec) (hf : rec.height ≤ (f rec).height) :
    maxHeights l ≤ maxHeights (aupdate l k f) := by
  rcases maxHeights_cases l with h0 | ⟨e, he, heq⟩
  · rw [h0]
    exact maxHeights_nonneg _
  · rw [heq]
    have himg : (if e.1 = k then (e.1, f e.2) else e) ∈ aupdate l k f :=
      List.mem_map.mpr ⟨e, he, rfl⟩
    by_cases hek : e.1 = k
    · have hrec : e.2 = rec := by
        have h4 := alookup_of_mem_nodup (by simpa using he) hn
        rw [hek, hlk] at h4
        injection h4 with h5
        exact h5.symm
      rw [if_pos hek] at himg
      have h6 := height_le_maxHeights himg
      calc e.2.height = rec.height := by rw [hrec]
        _ ≤ (f rec).height := hf
        _ = (f e.2).height := by rw [hrec]
        _ ≤ _ := h6
    · rw [if_neg hek] at himg
      exact height_le_maxHeights himg

theorem peerAddBlock_id (r : BPPeer) (b : Block) (sz : Int) :
    (r.AddBlock b sz).1.id = r.id := by
  unfold BPPeer.AddBlock
  split <;> rfl

theorem peerAddBlock_height (r : BPPeer) (b : Block) (sz : Int) :
    (r.AddBlock b sz).1.height = r.height := by
  unfold BPPeer.AddBlock
  split <;> rfl

theorem peerAddBlock_fst (r : BPPeer) (b : Block) (sz : Int) :
    (r.AddBlock b sz).1 = if b.height ∈ r.pending then
      { r with
        pending := serase r.pending b.height,
        delivered := ainsert r.delivered b.height b }
    else r := by
  unfold BPPeer.AddBlock
  by_cases hp : b.height ∈ r.pending
  · rw [if_pos hp, if_pos hp]
  · rw [if_neg hp, if_neg hp]

theorem keysOf_peerAddBlock (r : BPPeer) (b : Block) (sz : Int) :
    ∀ x, x ∈ keysOf (r.AddBlock b sz).1 ↔ x ∈ keysOf r := by
  intro x
  rw [peerAddBlock_fst]
  by_cases hp : b.height ∈ r.pending
  · rw [if_pos hp]
    show x ∈ serase r.pending b.height ++
      (ainsert r.delivered b.height b).map Prod.fst ↔ x ∈ keysOf r
    simp only [keysOf, List.mem_append, mem_serase, keys_ainsert_mem]
    by_cases hx : x = b.height
    · subst hx
      constructor
      · intro _
        exact Or.inl hp
      · intro _
        exact Or.inr (Or.inl rfl)
    · tauto
  · rw [if_neg hp]

theorem PoolInv_aupdate_peer (pool : BlockPool) (pid : Nat) (rec : BPPeer)
    (f : BPPeer → BPPeer) (hI : PoolInv pool) (hlk : alookup pool.peers pid = some rec)
    (hid : (f rec).id = rec.id) (hh : (f rec).height = rec.height)
    (hkeys : ∀ x, x ∈ keysOf (f rec) ↔ x ∈ keysOf rec) :
    PoolInv { pool with peers := aupdate pool.peers pid f } := by
  refine ⟨?_, hI.nodupBlocks, hI.nodupPlanned, hI.disj, hI.plannedBound, ?_, ?_, ?_⟩
  · show ((aupdate pool.peers pid f).map Prod.fst).Nodup
    rw [keys_aupdate]
    exact hI.nodupPeers
  · intro e he
    obtain ⟨hb1, r, hr1, hr2, hr3⟩ := hI.blocksBound e he
    refine ⟨hb1, ?_⟩
    by_cases hq : e.2 = pid
    · have hr : r = rec := by
        rw [hq, hlk] at hr1
        injection hr1 with h2
        exact h2.symm
      subst hr
      refine ⟨f r, ?_, (hkeys e.1).mpr hr2, ?_⟩
      · show alookup (aupdate pool.peers pid f) e.2 = some (f r)
        rw [hq, alookup_aupdate, if_pos rfl, hlk]
        rfl
      · rw [hh]
        exact hr3
    · refine ⟨r, ?_, hr2, hr3⟩
      show alookup (aupdate pool.peers pid f) e.2 = some r
      rw [alookup_aupdate, if_neg hq]
      exact hr1
  · intro e he
    have he2 : e ∈ aupdate pool.peers pid f := he
    rcases mem_aupdate_elim he2 with h1 | ⟨v, hv, rfl⟩
    · exact hI.peerGood e h1
    · have hvrec : v = rec := by
        have h4 := alookup_of_mem_nodup hv hI.nodupPeers
        rw [hlk] at h4
        injection h4 with h5
        exact h5.symm
      subst hvrec
      refine ⟨?_, ?_⟩
      · show (f v).id = pid
        rw [hid]
        exact hI.lookup_id hlk
      · intro h hh2
        exact (hI.peerGood (pid, v) (mem_of_alookup hlk)).2 h ((hkeys h).mp hh2)
  · show pool.MaxPeerHeight = maxHeights (aupdate pool.peers pid f)
    rw [maxHeights_aupdate_keep pool.peers pid f rec hI.nodupPeers hlk hh]
    exact hI.maxSync

theorem NewBlockPool_inv (height : Int) : PoolInv (NewBlockPool height) := by
  refine ⟨?_, ?_, ?_, ?_, ?_, ?_, ?_, ?_⟩ <;>
    simp [NewBlockPool, maxHeights, alookup]

theorem UpdatePeer_inv (pool : BlockPool) (pid : Nat) (height : Int)
    (hI : PoolInv pool) : PoolInv (UpdatePeer pool pid height).1 := by
  unfold UpdatePeer
  cases hlk : alookup pool.peers pid with
  | none =>
    dsimp only
    by_cases hshort : height < pool.Height
    · rw [if_pos hshort]
      exact hI
    · rw [if_neg hshort]
      refine ⟨?_, hI.nodupBlocks, hI.nodupPlanned, hI.disj, ?_, ?_, ?_, rfl⟩
      · show ((ainsert pool.peers pid (NewBPPeer pid height)).map Prod.fst).Nodup
        exact keys_ainsert_nodup _ _ hI.nodupPeers
      · intro k hk
        obtain ⟨h1, h2⟩ := hI.plannedBound k hk
        refine ⟨h1, ?_⟩
        show k ≤ maxHeights (ainsert pool.peers pid (NewBPPeer pid height))
        rw [hI.maxSync] at h2
        exact le_trans h2 (maxHeights_mono (fun e he => mem_ainsert_of_none hlk he))
      · intro e he
        obtain ⟨h1, r, hr1, hr2, hr3⟩ := hI.blocksBound e he
        have hq : e.2 ≠ pid := by
          intro hc
          rw [hc, hlk] at hr1
          cases hr1
        refine ⟨h1, r, ?_, hr2, hr3⟩
        show alookup (ainsert pool.peers pid (NewBPPeer pid height)) e.2 = some r
        rw [alookup_ainsert_ne _ _ _ _ hq]
        exact hr1
      · intro e he
        have he2 : e ∈ ainsert pool.peers pid (NewBPPeer pid height) := he
        rcases mem_ainsert_elim he2 with rfl | h1
        · refine ⟨rfl, ?_⟩
          intro h hh
          simp [keysOf, NewBPPeer] at hh
        · exact hI.peerGood e h1
  | some peer =>
    dsimp only
    by_cases hlow : height < peer.height
    · rw [if_pos hlow]
      exact (RemovePeer_spec pool pid (some BCError.peerLowersItsHeight) hI).1
    · rw [if_neg hlow]
      have hraise : peer.height ≤ height := by omega
      refine ⟨?_, hI.nodupBlocks, hI.nodupPlanned, hI.disj, ?_, ?_, ?_, rfl⟩
      · show ((aupdate pool.peers pid (fun r => { r with height := height })).map
          Prod.fst).Nodup
        rw [keys_aupdate]
        exact hI.nodupPeers
      · intro k hk
        obtain ⟨h1, h2⟩ := hI.plannedBound k hk
        refine ⟨h1, ?_⟩
        show k ≤ maxHeights (aupdate pool.peers pid (fun r => { r with height := height }))
        rw [hI.maxSync] at h2
        exact le_trans h2
          (maxHeights_le_aupdate_raise pool.peers pid _ peer hI.nodupPeers hlk hraise)
      · intro e he
        obtain ⟨h1, r, hr1, hr2, hr3⟩ := hI.blocksBound e he
        refine ⟨h1, ?_⟩
        by_cases hq : e.2 = pid
        · have hr : r = peer := by
            rw [hq, hlk] at hr1
            injection hr1 with h2
            exact h2.symm
          subst hr
          refine ⟨{ r with height := height }, ?_, hr2, ?_⟩
          · show alookup (aupdate pool.peers pid
              (fun r => { r with height := height })) e.2 = _
            rw [hq, alookup_aupdate, if_pos rfl, hlk]
            rfl
          · show e.1 ≤ height
            omega
        · refine ⟨r, ?_, hr2, hr3⟩
          show alookup (aupdate pool.peers pid
            (fun r => { r with height := height })) e.2 = some r
          rw [alookup_aupdate, if_neg hq]
          exact hr1
      · intro e he
        have he2 : e ∈ aupdate pool.peers pid (fun r => { r with height := height }) := he
        rcases List.mem_map.mp he2 with ⟨a, ha, rfl⟩
        by_cases hak : a.1 = pid
        · rw [if_pos hak]
          have har : a.2 = peer := by
            have h4 := alookup_of_mem_nodup (by simpa using ha) hI.nodupPeers
            rw [hak, hlk] at h4
            injection h4 with h5
            exact h5.symm
          obtain ⟨hg1, hg2⟩ := hI.peerGood a ha
          exact ⟨hg1, hg2⟩
        · rw [if_neg hak]
          exact hI.peerGood a ha

theorem AddBlock_inv (pool : BlockPool) (pid : Nat) (b : Block) (sz : Int)
    (hI : PoolInv pool) : PoolInv (AddBlock pool pid b sz).1 := by
  unfold AddBlock
  cases hlk : alookup pool.peers pid with
  | none => exact hI
  | some peer =>
    dsimp only
    cases hw : alookup pool.blocks b.height with
    | some want =>
      dsimp only
      by_cases hne : want ≠ pid
      · rw [if_pos hne]
        exact hI
      · rw [if_neg hne]
        exact PoolInv_aupdate_peer pool pid peer (fun _ => (peer.AddBlock b sz).1) hI hlk
          (peerAddBlock_id peer b sz) (peerAddBlock_height peer b sz)
          (keysOf_peerAddBlock peer b sz)
    | none =>
      exact PoolInv_aupdate_peer pool pid peer (fun _ => (peer.AddBlock b sz).1) hI hlk
        (peerAddBlock_id peer b sz) (peerAddBlock_height peer b sz)
        (keysOf_peerAddBlock peer b sz)

theorem ProcessedCurrentHeightBlock_inv (pool : BlockPool) (hI : PoolInv pool) :
    PoolInv (ProcessedCurrentHeightBlock pool) := by
  unfold ProcessedCurrentHeightBlock
  cases hlk : alookup pool.blocks pool.Height with
  | some peerID =>
    dsimp only
    apply removeShortPeers_inv
    obtain ⟨hbH, r, hr1, hr2, hr3⟩ := hI.blocks_lookup hlk
    refine ⟨?_, ?_, hI.nodupPlanned, ?_, hI.plannedBound, ?_, ?_, ?_⟩
    · show ((aupdate pool.peers peerID (fun r => r.RemoveBlock pool.Height)).map
        Prod.fst).Nodup
      rw [keys_aupdate]
      exact hI.nodupPeers
    · show ((aerase pool.blocks pool.Height).map Prod.fst).Nodup
      exact List.Nodup.sublist (keys_aerase_sublist _ _) hI.nodupBlocks
    · intro k hk
      show alookup (aerase pool.blocks pool.Height) k = none
      rw [alookup_aerase]
      by_cases hkh : k = pool.Height
      · rw [if_pos hkh]
      · rw [if_neg hkh]
        exact hI.disj k hk
    · intro e he
      have he2 : e ∈ aerase pool.blocks pool.Height := he
      rcases mem_aerase.mp he2 with ⟨he3, hne⟩
      obtain ⟨hb1, r2, hq1, hq2, hq3⟩ := hI.blocksBound e he3
      refine ⟨hb1, ?_⟩
      by_cases hq : e.2 = peerID
      · have hrr : r2 = r := by
          rw [hq, hr1] at hq1
          injection hq1 with h2
          exact h2.symm
        subst hrr
        refine ⟨r2.RemoveBlock pool.Height, ?_, ?_, hq3⟩
        · show alookup (aupdate pool.peers peerID
            (fun r => r.RemoveBlock pool.Height)) e.2 = _
          rw [hq, alookup_aupdate, if_pos rfl, hr1]
          rfl
        · exact keysOf_RemoveBlock.mpr ⟨hq2, hne⟩
      · refine ⟨r2, ?_, hq2, hq3⟩
        show alookup (aupdate pool.peers peerID
          (fun r => r.RemoveBlock pool.Height)) e.2 = some r2
        rw [alookup_aupdate, if_neg hq]
        exact hq1
    · intro e he
      have he2 : e ∈ aupdate pool.peers peerID (fun r => r.RemoveBlock pool.Height) := he
      rcases List.mem_map.mp he2 with ⟨a, ha, rfl⟩
      obtain ⟨hg1, hg2⟩ := hI.peerGood a ha
      by_cases hak : a.1 = peerID
      · rw [if_pos hak]
        refine ⟨hg1, ?_⟩
        intro h hh
        have har : a.2 = r := by
          have h4 := alookup_of_mem_nodup (by simpa using ha) hI.nodupPeers
          rw [hak, hr1] at h4
          injection h4 with h5
          exact h5.symm
        rw [har] at hh
        rcases keysOf_RemoveBlock.mp hh with ⟨hh1, hh2⟩
        have h3 := hg2 h (by rw [har]; exact hh1)
        show alookup (aerase pool.blocks pool.Height) h = some a.1
        rw [alookup_aerase, if_neg hh2]
        exact h3
      · rw [if_neg hak]
        refine ⟨hg1, ?_⟩
        intro h hh
        have h3 := hg2 h hh
        have hne : h ≠ pool.Height := by
          intro hc
          rw [hc, hlk] at h3
          injection h3 with h5
          exact hak h5.symm
        show alookup (aerase pool.blocks pool.Height) h = some a.1
        rw [alookup_aerase, if_neg hne]
        exact h3
    · show pool.MaxPeerHeight = maxHeights (aupdate pool.peers peerID
        (fun r => r.RemoveBlock pool.Height))
      rw [maxHeights_aupdate pool.peers peerID
        (fun r => r.RemoveBlock pool.Height) (fun r => rfl)]
      exact hI.maxSync
  | none =>
    dsimp only
    apply removeShortPeers_inv
    refine ⟨hI.nodupPeers, ?_, hI.nodupPlanned, ?_, hI.plannedBound, ?_, ?_, hI.maxSync⟩
    · show ((aerase pool.blocks pool.Height).map Prod.fst).Nodup
      exact List.Nodup.sublist (keys_aerase_sublist _ _) hI.nodupBlocks
    · intro k hk
      show alookup (aerase pool.blocks pool.Height) k = none
      rw [alookup_aerase]
      by_cases hkh : k = pool.Height
      · rw [if_pos hkh]
      · rw [if_neg hkh]
        exact hI.disj k hk
    · intro e he
      have he2 : e ∈ aerase pool.blocks pool.Height := he
      rcases mem_aerase.mp he2 with ⟨he3, hne⟩
      exact hI.blocksBound e he3
    · intro e he
      obtain ⟨hg1, hg2⟩ := hI.peerGood e he
      refine ⟨hg1, ?_⟩
      intro h hh
      have h3 := hg2 h hh
      have hne : h ≠ pool.Height := by
        intro hc
        rw [hc, hlk] at h3
        cases h3
      show alookup (aerase pool.blocks pool.Height) h = some e.1
      rw [alookup_aerase, if_neg hne]
      exact h3

theorem InvalidateFirstTwoBlocks_inv (pool : BlockPool) (err : Option BCError)
    (hI : PoolInv pool) : PoolInv (InvalidateFirstTwoBlocks pool err) := by
  unfold InvalidateFirstTwoBlocks
  cases BlockAndPeerAtHeight pool pool.Height with
  | ok bd =>
    cases BlockAndPeerAtHeight pool (pool.Height + 1) with
    | ok bd2 =>
      exact (RemovePeer_spec _ _ _ ((RemovePeer_spec _ _ _ hI).1)).1
    | error e =>
      exact (RemovePeer_spec _ _ _ hI).1
  | error e =>
    cases BlockAndPeerAtHeight pool (pool.Height + 1) with
    | ok bd2 =>
      exact (RemovePeer_spec _ _ _ hI).1
    | error e2 =>
      exact hI

theorem PoolInv_of_branch (pool : BlockPool) (err : Option BCError)
    (hI : PoolInv pool) :
    ∀ x : BlockPool, (x = pool ∨ ∃ pid, x = RemovePeer pool pid err) → PoolInv x := by
  rintro x (rfl | ⟨pid, rfl⟩)
  · exact hI
  · exact (RemovePeer_spec pool pid err hI).1

theorem RemovePeerAtCurrentHeights_inv (pool : BlockPool) (err : Option BCError)
    (hI : PoolInv pool) : PoolInv (RemovePeerAtCurrentHeights pool err) := by
  apply PoolInv_of_branch pool err hI
  unfold RemovePeerAtCurrentHeights
  cases alookup pool.blocks pool.Height with
  | some peerID =>
    dsimp only
    cases alookup pool.peers peerID with
    | some peer =>
      dsimp only
      cases peer.BlockAtHeight pool.Height with
      | ok b =>
        cases alookup pool.blocks (pool.Height + 1) with
        | some peerID2 =>
          dsimp only
          cases alookup pool.peers peerID2 with
          | some peer2 =>
            dsimp only
            cases peer2.BlockAtHeight (pool.Height + 1) with
            | ok b2 => exact Or.inl rfl
            | error e2 => exact Or.inr ⟨peerID2, rfl⟩
          | none => exact Or.inl rfl
        | none => exact Or.inl rfl
      | error e => exact Or.inr ⟨peerID, rfl⟩
    | none =>
      dsimp only
      cases alookup pool.blocks (pool.Height + 1) with
      | some peerID2 =>
        dsimp only
        cases alookup pool.peers peerID2 with
        | some peer2 =>
          dsimp only
          cases peer2.BlockAtHeight (pool.Height + 1) with
          | ok b2 => exact Or.inl rfl
          | error e2 => exact Or.inr ⟨peerID2, rfl⟩
        | none => exact Or.inl rfl
      | none => exact Or.inl rfl
  | none =>
    dsimp only
    cases alookup pool.blocks (pool.Height + 1) with
    | some peerID2 =>
      dsimp only
      cases alookup pool.peers peerID2 with
      | some peer2 =>
        dsimp only
        cases peer2.BlockAtHeight (pool.Height + 1) with
        | ok b2 => exact Or.inl rfl
        | error e2 => exact Or.inr ⟨peerID2, rfl⟩
      | none => exact Or.inl rfl
    | none => exact Or.inl rfl

theorem dispatchLoop_queueFull (env : SendEnv)
    (henv : ∀ q k, env q k = some BCError.sendQueueFull) :
    ∀ (batch : List Int) (pool : BlockPool), dispatchLoop env batch pool = pool := by
  intro batch
  induction batch with
  | nil => intro pool; rfl
  | cons h t ih =>
    intro pool
    show (if (sendRequest env pool h).2 = true then
      dispatchLoop env t { (sendRequest env pool h).1 with
        plannedRequests := serase (sendRequest env pool h).1.plannedRequests h }
      else (sendRequest env pool h).1) = pool
    have hqf : sendRequest env pool h = (pool, false) :=
      sendLoop_queueFull env h henv pool.peers pool
    rw [hqf]
    simp

theorem dispatchLoop_failure_stop (env : SendEnv) (h : Int) (rest : List Int)
    (pool : BlockPool) (hfail : (sendRequest env pool h).2 = false) :
    dispatchLoop env (h :: rest) pool = (sendRequest env pool h).1 := by
  show (if (sendRequest env pool h).2 = true then
    dispatchLoop env rest { (sendRequest env pool h).1 with
      plannedRequests := serase (sendRequest env pool h).1.plannedRequests h }
    else (sendRequest env pool h).1) = _
  rw [hfail]
  simp

/-- C1: the codec round trip decode(encode(m)) = m fails on the
structurally valid message StatusResponse 1: the source encodes it as
the wire StatusRequest variant, which decodes to a StatusRequest
message, so the round trip returns a different message. -/
theorem codec_roundTrip_fails_on_statusResponse :
    (Message.statusResponse 1).validateBasic = true ∧
    codecRoundTrip (Message.statusResponse 1) =
      Except.ok (Message.statusRequest 1) ∧
    Message.statusRequest 1 ≠ Message.statusResponse 1 :=
  ⟨rfl, rfl, by decide⟩

/-- C2: the source swaps the status wire variants: a StatusRequest
message encodes to the wire StatusResponse variant, a StatusResponse
message encodes to the wire StatusRequest variant, and the wire
StatusResponse variant decodes to a StatusRequest message — each the
opposite of what the claim states. -/
theorem codec_status_encoding_swapped :
    MsgToProto (Message.statusRequest 1) =
      Except.ok (ProtoMessage.statusResponse 1) ∧
    MsgToProto (Message.statusResponse 1) =
      Except.ok (ProtoMessage.statusRequest 1) ∧
    MsgFromProto (ProtoMessage.statusResponse 1) =
      Except.ok (Message.statusRequest 1) :=
  ⟨rfl, rfl, rfl⟩

/-- C3: for a pool satisfying the pool invariant, removing a present
peer conserves the planned-or-assigned height set except for exactly
the heights above the new max peer height, and every height of the
removed peer at or below the new max ends up planned and unassigned. -/
theorem removePeer_reschedule_conservation (pool : BlockPool) (pid : Nat)
    (rec : BPPeer) (err : Option BCError) (hI : PoolInv pool)
    (hl : alookup pool.peers pid = some rec) :
    (∀ h : Int, (h ∈ (RemovePeer pool pid err).plannedRequests ∨
        (alookup (RemovePeer pool pid err).blocks h).isSome) ↔
      ((h ∈ pool.plannedRequests ∨ (alookup pool.blocks h).isSome) ∧
        h ≤ (RemovePeer pool pid err).MaxPeerHeight)) ∧
    (∀ h ∈ keysOf rec, h ≤ (RemovePeer pool pid err).MaxPeerHeight →
      h ∈ (RemovePeer pool pid err).plannedRequests ∧
        alookup (RemovePeer pool pid err).blocks h = none) := by
  obtain ⟨_, _, _, _, _, _, _, h8, h9⟩ := RemovePeer_some_spec pool pid rec err hI hl
  exact ⟨h8, h9⟩

/-- C3 witness: removing the tallest peer of the concrete pool keeps
both heights, now both planned. -/
theorem removePeer_reschedule_conservation_witness :
    (∀ h : Int, (h ∈ (RemovePeer consPool 1 none).plannedRequests ∨
        (alookup (RemovePeer consPool 1 none).blocks h).isSome) ↔
      ((h ∈ consPool.plannedRequests ∨ (alookup consPool.blocks h).isSome) ∧
        h ≤ (RemovePeer consPool 1 none).MaxPeerHeight)) ∧
    (∀ h ∈ keysOf (⟨1, 10, [3], [], false⟩ : BPPeer),
      h ≤ (RemovePeer consPool 1 none).MaxPeerHeight →
      h ∈ (RemovePeer consPool 1 none).plannedRequests ∧
        alookup (RemovePeer consPool 1 none).blocks h = none) :=
  removePeer_reschedule_conservation consPool 1 ⟨1, 10, [3], [], false⟩ none
    (by decide) (by decide)

/-- C4: whenever RemovePeer lowers the max peer height, afterwards no
planned height exceeds the new max peer height and the next request
height is clamped to at most the new max plus one. -/
theorem removePeer_maxDrop_clamps (pool : BlockPool) (pid : Nat) (err : Option BCError)
    (hdec : (RemovePeer pool pid err).MaxPeerHeight < pool.MaxPeerHeight) :
    (∀ h ∈ (RemovePeer pool pid err).plannedRequests,
      h ≤ (RemovePeer pool pid err).MaxPeerHeight) ∧
    (RemovePeer pool pid err).nextRequestHeight ≤
      (RemovePeer pool pid err).MaxPeerHeight + 1 := by
  cases hlk : alookup pool.peers pid with
  | none =>
    rw [RemovePeer_eq_of_none pool pid err hlk] at hdec
    omega
  | some rec =>
    rw [RemovePeer_eq pool pid err rec hlk] at hdec ⊢
    by_cases hlow : (removePhase2 pool pid rec).MaxPeerHeight <
        (reschedFold pid (keysOf rec) pool).MaxPeerHeight
    · rw [if_pos hlow] at hdec ⊢
      by_cases hcl : (removePhase2 pool pid rec).MaxPeerHeight <
          (removePhase2 pool pid rec).nextRequestHeight
      · rw [if_pos hcl] at hdec ⊢
        constructor
        · intro h hh
          have hh2 := (List.mem_filter.mp hh).2
          have hh3 := of_decide_eq_true hh2
          show h ≤ (removePhase2 pool pid rec).MaxPeerHeight
          exact hh3
        · show (removePhase2 pool pid rec).MaxPeerHeight + 1 ≤
            (removePhase2 pool pid rec).MaxPeerHeight + 1
          omega
      · rw [if_neg hcl] at hdec ⊢
        constructor
        · intro h hh
          have hh2 := (List.mem_filter.mp hh).2
          have hh3 := of_decide_eq_true hh2
          show h ≤ (removePhase2 pool pid rec).MaxPeerHeight
          exact hh3
        · show (removePhase2 pool pid rec).nextRequestHeight ≤
            (removePhase2 pool pid rec).MaxPeerHeight + 1
          omega
    · rw [if_neg hlow] at hdec
      rw [reschedFold_Max] at hlow
      omega

/-- C4 witness: removing the tallest of two peers drops the max from 20
to 8, prunes the planned height 9, and clamps the next height to 9. -/
theorem removePeer_maxDrop_clamps_witness :
    ((RemovePeer tallPool 1 none).MaxPeerHeight < tallPool.MaxPeerHeight) ∧
    (∀ h ∈ (RemovePeer tallPool 1 none).plannedRequests,
      h ≤ (RemovePeer tallPool 1 none).MaxPeerHeight) ∧
    (RemovePeer tallPool 1 none).nextRequestHeight ≤
      (RemovePeer tallPool 1 none).MaxPeerHeight + 1 :=
  ⟨by decide, removePeer_maxDrop_clamps tallPool 1 none (by decide)⟩

/-- C5: AddBlock rejects a block from an unknown peer, and a block whose
height is assigned to a different peer, with the bad-data error; in both
cases the pool is returned unchanged, so the blocks map, the peer
registry and the original assignment survive. -/
theorem addBlock_badData (pool : BlockPool) (pid : Nat) (block : Block) (sz : Int)
    (hbad : alookup pool.peers pid = none ∨
      ∃ q, alookup pool.blocks block.height = some q ∧ q ≠ pid) :
    AddBlock pool pid block sz = (pool, some BCError.badDataFromPeer) ∧
    (AddBlock pool pid block sz).1.blocks = pool.blocks ∧
    (AddBlock pool pid block sz).1.peers = pool.peers ∧
    (∀ q, alookup pool.blocks block.height = some q →
      alookup (AddBlock pool pid block sz).1.blocks block.height = some q) := by
  have heq : AddBlock pool pid block sz = (pool, some BCError.badDataFromPeer) := by
    unfold AddBlock
    cases hlk : alookup pool.peers pid with
    | none => rfl
    | some peer =>
      dsimp only
      rcases hbad with hbad | ⟨q, hq1, hq2⟩
      · rw [hlk] at hbad
        cases hbad
      · rw [hq1]
        dsimp only
        rw [if_pos hq2]
  refine ⟨heq, by rw [heq], by rw [heq], fun q hq => by rw [heq]; exact hq⟩

/-- C5 witness: peer 2 delivers a block at height 5 that is assigned to
peer 1; AddBlock rejects it and the assignment to peer 1 survives. -/
theorem addBlock_badData_witness :
    AddBlock assignedPool 2 ⟨5⟩ 100 = (assignedPool, some BCError.badDataFromPeer) ∧
    alookup (AddBlock assignedPool 2 ⟨5⟩ 100).1.blocks 5 = some 1 := by
  have hmain := addBlock_badData assignedPool 2 ⟨5⟩ 100 (Or.inr ⟨1, by decide, by decide⟩)
  exact ⟨hmain.1, hmain.2.2.2 1 (by decide)⟩

/-- C7: UpdatePeer rejects an unknown peer whose advertised height is
below the pool height with the too-short error and leaves every pool
component unchanged. -/
theorem updatePeer_tooShort (pool : BlockPool) (pid : Nat) (height : Int)
    (hlk : alookup pool.peers pid = none) (hshort : height < pool.Height) :
    UpdatePeer pool pid height = (pool, some BCError.peerTooShort) ∧
    (UpdatePeer pool pid height).1.peers = pool.peers ∧
    (UpdatePeer pool pid height).1.blocks = pool.blocks ∧
    (UpdatePeer pool pid height).1.plannedRequests = pool.plannedRequests ∧
    (UpdatePeer pool pid height).1.MaxPeerHeight = pool.MaxPeerHeight := by
  have heq : UpdatePeer pool pid height = (pool, some BCError.peerTooShort) := by
    unfold UpdatePeer
    rw [hlk]
    dsimp only
    rw [if_pos hshort]
  exact ⟨heq, by rw [heq], by rw [heq], by rw [heq], by rw [heq]⟩

/-- C7 witness: a peer with height 3 is rejected by a pool at height 5
and the empty pool is unchanged. -/
theorem updatePeer_tooShort_witness :
    UpdatePeer (NewBlockPool 5) 1 3 = (NewBlockPool 5, some BCError.peerTooShort) ∧
    (UpdatePeer (NewBlockPool 5) 1 3).1.peers = (NewBlockPool 5).peers ∧
    (UpdatePeer (NewBlockPool 5) 1 3).1.blocks = (NewBlockPool 5).blocks ∧
    (UpdatePeer (NewBlockPool 5) 1 3).1.plannedRequests =
      (NewBlockPool 5).plannedRequests ∧
    (UpdatePeer (NewBlockPool 5) 1 3).1.MaxPeerHeight =
      (NewBlockPool 5).MaxPeerHeight :=
  updatePeer_tooShort (NewBlockPool 5) 1 3 (by decide) (by decide)

/-- C9: RemovePeer of an unknown peer id is a no-op on every component
of the pool. -/
theorem removePeer_unknown_noop (pool : BlockPool) (pid : Nat) (err : Option BCError)
    (h : alookup pool.peers pid = none) :
    (RemovePeer pool pid err).peers = pool.peers ∧
    (RemovePeer pool pid err).blocks = pool.blocks ∧
    (RemovePeer pool pid err).plannedRequests = pool.plannedRequests ∧
    (RemovePeer pool pid err).nextRequestHeight = pool.nextRequestHeight ∧
    (RemovePeer pool pid err).Height = pool.Height ∧
    (RemovePeer pool pid err).MaxPeerHeight = pool.MaxPeerHeight := by
  rw [RemovePeer_eq_of_none pool pid err h]
  exact ⟨rfl, rfl, rfl, rfl, rfl, rfl⟩

/-- C9 witness: removing the unknown peer 7 from the concrete pool
changes nothing. -/
theorem removePeer_unknown_noop_witness :
    (RemovePeer consPool 7 none).peers = consPool.peers ∧
    (RemovePeer consPool 7 none).blocks = consPool.blocks ∧
    (RemovePeer consPool 7 none).plannedRequests = consPool.plannedRequests ∧
    (RemovePeer consPool 7 none).nextRequestHeight = consPool.nextRequestHeight ∧
    (RemovePeer consPool 7 none).Height = consPool.Height ∧
    (RemovePeer consPool 7 none).MaxPeerHeight = consPool.MaxPeerHeight :=
  removePeer_unknown_noop consPool 7 none (by decide)

/-- C10: BroadcastEvidence returns the evidence hash with no error when
AddEvidence answers nil or already-stored, and passes through every
other error with no result. -/
theorem broadcastEvidence_duplicate (addEvidence : Evidence → Option EvError)
    (ev : Evidence) :
    ((addEvidence ev = none ∨
        ∃ e, addEvidence ev = some (EvError.alreadyStored e)) →
      BroadcastEvidence addEvidence ev = Except.ok { Hash := ev.hash }) ∧
    (∀ err, addEvidence ev = some err → (∀ e, err ≠ EvError.alreadyStored e) →
      BroadcastEvidence addEvidence ev = Except.error err) := by
  constructor
  · rintro (h | ⟨e, h⟩) <;> unfold BroadcastEvidence <;> rw [h]
  · intro err h hne
    unfold BroadcastEvidence
    rw [h]
    cases err with
    | invalidEvidence e => rfl
    | alreadyStored e => exact absurd rfl (hne e)
    | other => rfl

/-- C10 witness: a duplicate submission still returns the hash, and an
unrelated error is passed through. -/
theorem broadcastEvidence_duplicate_witness :
    BroadcastEvidence (fun _ => some (EvError.alreadyStored ⟨3⟩)) ⟨3⟩ =
      Except.ok { Hash := 3 } ∧
    BroadcastEvidence (fun _ => some EvError.other) ⟨4⟩ =
      Except.error EvError.other :=
  ⟨(broadcastEvidence_duplicate (fun _ => some (EvError.alreadyStored ⟨3⟩)) ⟨3⟩).1
      (Or.inr ⟨⟨3⟩, rfl⟩),
   (broadcastEvidence_duplicate (fun _ => some EvError.other) ⟨4⟩).2 EvError.other rfl
      (fun e hc => EvError.noConfusion hc)⟩

/-- C8: the disjointness between planned requests and assigned block
heights holds in a fresh pool and, as part of the pool invariant, is
preserved by every pool operation: after each of the seven operations
the planned set still avoids every key of the blocks map. -/
theorem pool_disjointness_invariant (h0 : Int) :
    (PoolInv (NewBlockPool h0) ∧
      ∀ h ∈ (NewBlockPool h0).plannedRequests,
        alookup (NewBlockPool h0).blocks h = none) ∧
    ∀ pool, PoolInv pool →
      (∀ pid height, PoolInv (UpdatePeer pool pid height).1 ∧
        ∀ h ∈ (UpdatePeer pool pid height).1.plannedRequests,
          alookup (UpdatePeer pool pid height).1.blocks h = none) ∧
      (∀ pid err, PoolInv (RemovePeer pool pid err) ∧
        ∀ h ∈ (RemovePeer pool pid err).plannedRequests,
          alookup (RemovePeer pool pid err).blocks h = none) ∧
      (∀ env n, PoolInv (MakeNextRequests env pool n) ∧
        ∀ h ∈ (MakeNextRequests env pool n).plannedRequests,
          alookup (MakeNextRequests env pool n).blocks h = none) ∧
      (∀ pid b sz, PoolInv (AddBlock pool pid b sz).1 ∧
        ∀ h ∈ (AddBlock pool pid b sz).1.plannedRequests,
          alookup (AddBlock pool pid b sz).1.blocks h = none) ∧
      (PoolInv (ProcessedCurrentHeightBlock pool) ∧
        ∀ h ∈ (ProcessedCurrentHeightBlock pool).plannedRequests,
          alookup (ProcessedCurrentHeightBlock pool).blocks h = none) ∧
      (∀ err, PoolInv (InvalidateFirstTwoBlocks pool err) ∧
        ∀ h ∈ (InvalidateFirstTwoBlocks pool err).plannedRequests,
          alookup (InvalidateFirstTwoBlocks pool err).blocks h = none) ∧
      (∀ err, PoolInv (RemovePeerAtCurrentHeights pool err) ∧
        ∀ h ∈ (RemovePeerAtCurrentHeights pool err).plannedRequests,
          alookup (RemovePeerAtCurrentHeights pool err).blocks h = none) := by
  refine ⟨⟨NewBlockPool_inv h0, (NewBlockPool_inv h0).disj⟩, fun pool hI => ?_⟩
  refine ⟨fun pid height => ?_, fun pid err => ?_, fun env n => ?_,
    fun pid b sz => ?_, ?_, fun err => ?_, fun err => ?_⟩
  · exact ⟨UpdatePeer_inv pool pid height hI, (UpdatePeer_inv pool pid height hI).disj⟩
  · exact ⟨(RemovePeer_spec pool pid err hI).1, (RemovePeer_spec pool pid err hI).1.disj⟩
  · exact ⟨MakeNextRequests_inv env pool n hI, (MakeNextRequests_inv env pool n hI).disj⟩
  · exact ⟨AddBlock_inv pool pid b sz hI, (AddBlock_inv pool pid b sz hI).disj⟩
  · exact ⟨ProcessedCurrentHeightBlock_inv pool hI,
      (ProcessedCurrentHeightBlock_inv pool hI).disj⟩
  · exact ⟨InvalidateFirstTwoBlocks_inv pool err hI,
      (InvalidateFirstTwoBlocks_inv pool err hI).disj⟩
  · exact ⟨RemovePeerAtCurrentHeights_inv pool err hI,
      (RemovePeerAtCurrentHeights_inv pool err hI).disj⟩

/-- C8 witness: the fresh pool at height 1 satisfies the invariant and
the disjointness, and processing the current height block of the
concrete pool preserves both. -/
theorem pool_disjointness_invariant_witness :
    (PoolInv (NewBlockPool 1) ∧
      ∀ h ∈ (NewBlockPool 1).plannedRequests,
        alookup (NewBlockPool 1).blocks h = none) ∧
    (PoolInv (ProcessedCurrentHeightBlock consPool) ∧
      ∀ h ∈ (ProcessedCurrentHeightBlock consPool).plannedRequests,
        alookup (ProcessedCurrentHeightBlock consPool).blocks h = none) :=
  ⟨(pool_disjointness_invariant 1).1,
   ((pool_disjointness_invariant 1).2 consPool (by decide)).2.2.2.2.1⟩

/-- C6 counterexample: from an invariant-satisfying pool whose only
batched height is 5 the send fails, because the nil-peer answer removes
the only peer; the height 5 does not remain in the planned requests,
since the removal lowered the max peer height to 0 and the planned set
was pruned below it. -/
theorem makeNextRequests_planned_lost :
    PoolInv nilPool ∧
    (makeRequestBatch nilPool 1).2 = [5] ∧
    (sendRequest nilEnv (makeRequestBatch nilPool 1).1 5).2 = false ∧
    5 ∉ (MakeNextRequests nilEnv nilPool 1).plannedRequests := by
  have hb1 : (makeRequestBatch nilPool 1).1 = nilPool := rfl
  have hb2 : (makeRequestBatch nilPool 1).2 =
      ([5] : List Int).mergeSort (fun a b => a ≤ b) := rfl
  have hb3 : (makeRequestBatch nilPool 1).2 = [5] := by
    rw [hb2, List.mergeSort_singleton]
  have hall : MakeNextRequests nilEnv nilPool 1 = dispatchLoop nilEnv [5] nilPool := by
    show dispatchLoop nilEnv (makeRequestBatch nilPool 1).2
      (makeRequestBatch nilPool 1).1 = dispatchLoop nilEnv [5] nilPool
    rw [hb3, hb1]
  refine ⟨by decide, hb3, ?_, ?_⟩
  · rw [hb1]
    decide
  · rw [hall]
    decide

/-- C6 (amended): the batch is dispatched in ascending order; the
dispatch loop stops at the first failing height, returning the state
right after the failed send, so no later height is attempted; a failed
send adds no assignment to the blocks map and keeps every planned
height unless a peer removal during the send lowered the max peer
height below it; and when every send answers queue-full the dispatch
returns the batch pool exactly unchanged. -/
theorem makeNextRequests_failure_stop (env : SendEnv) (pool : BlockPool) (n : Int) :
    List.Sorted (fun a b : Int => a ≤ b) (makeRequestBatch pool n).2 ∧
    (∀ h rest p, (sendRequest env p h).2 = false →
      dispatchLoop env (h :: rest) p = (sendRequest env p h).1) ∧
    (∀ p h, PoolInv p → alookup p.blocks h = none →
      (h < p.nextRequestHeight ∨ p.MaxPeerHeight < h) →
      (sendRequest env p h).2 = false →
      PoolInv (sendRequest env p h).1 ∧
      (∀ k q, alookup (sendRequest env p h).1.blocks k = some q →
        alookup p.blocks k = some q) ∧
      (∀ k ∈ p.plannedRequests, k ∈ (sendRequest env p h).1.plannedRequests ∨
        (sendRequest env p h).1.MaxPeerHeight < k)) ∧
    ((∀ q k, env q k = some BCError.sendQueueFull) →
      MakeNextRequests env pool n = (makeRequestBatch pool n).1) := by
  refine ⟨?_, ?_, ?_, ?_⟩
  · show List.Sorted (fun a b : Int => a ≤ b)
      (((makeRequestBatch pool n).1.plannedRequests).mergeSort (fun a b => a ≤ b))
    exact List.sorted_mergeSort' ((makeRequestBatch pool n).1.plannedRequests)
  · intro h rest p hfail
    exact dispatchLoop_failure_stop env h rest p hfail
  · intro p h hI hb hQ hfail
    obtain ⟨c1, _, _, _, c5, c6, _⟩ := sendRequest_spec env p h hI hb hQ
    refine ⟨c1 hfail, ?_, c6⟩
    intro k q hk
    rcases c5 k q hk with hk2 | ⟨_, htrue⟩
    · exact hk2
    · rw [hfail] at htrue
      cases htrue
  · intro henv
    show dispatchLoop env (makeRequestBatch pool n).2 (makeRequestBatch pool n).1 =
      (makeRequestBatch pool n).1
    exact dispatchLoop_queueFull env henv _ _

/-- C6 witness: under the queue-full environment the dispatch of the
concrete pool changes nothing, and a failed send from the concrete pool
keeps each planned height or exceeds the max peer height. -/
theorem makeNextRequests_failure_stop_witness :
    MakeNextRequests qfEnv consPool 1 = (makeRequestBatch consPool 1).1 ∧
    (∀ k ∈ consPool.plannedRequests,
      k ∈ (sendRequest qfEnv consPool 4).1.plannedRequests ∨
        (sendRequest qfEnv consPool 4).1.MaxPeerHeight < k) :=
  ⟨(makeNextRequests_failure_stop qfEnv consPool 1).2.2.2 (fun q k => rfl),
   ((makeNextRequests_failure_stop qfEnv consPool 1).2.2.1 consPool 4 (by decide)
      (by decide) (by decide) (by decide)).2.2⟩
